import Mathlib

/-!
Verification of the SplitKar expense-splitting core (`my-app/lib/split.ts` and
`my-app/lib/settlement.ts`) against its natural-language specification.

JavaScript numbers are modelled as exact rationals `ℚ`; the source's explicit
two-decimal rounding (`Math.round(x * 100) / 100`, `Math.floor(x * 100) / 100`)
is modelled with integer floor on `ℚ`.  A JavaScript `Map<string, number>` is
modelled as an insertion-ordered association list with in-place value update.
Logging calls in the source are pure tracing and are omitted; `Transaction`
fields not read by the functions under study (`id`, `description`, `date`,
`createdAt`) are likewise omitted.
-/

set_option maxHeartbeats 1000000

namespace SplitKar

/-- JavaScript `Math.round`: nearest integer, halves toward positive infinity. -/
def jround (x : ℚ) : ℤ := ⌊x + 1/2⌋

/-- `Math.round(x * 100) / 100`: round to 2 decimal places. -/
def round2 (x : ℚ) : ℚ := (jround (x * 100) : ℚ) / 100

/-- `Math.floor(x * 100) / 100`: floor to 2 decimal places. -/
def floor2 (x : ℚ) : ℚ := ((⌊x * 100⌋ : ℤ) : ℚ) / 100

/-- The rational is a whole number of cents (an integer multiple of `1/100`). -/
def is2dp (x : ℚ) : Prop := (x * 100).den = 1

/-- A JavaScript `Map<string, number>`: entries kept in insertion order. -/
abbrev JMap := List (String × ℚ)

/-- `map.get(k)`: the value stored at key `k`, if any. -/
def mget : JMap → String → Option ℚ
  | [], _ => none
  | e :: m, k => if e.1 = k then some e.2 else mget m k

/-- `map.get(k) || 0`: the stored value, or `0` when the key is absent
(`0` itself is falsy in JavaScript, so the two cases agree on a stored `0`). -/
def mgetD (m : JMap) (k : String) : ℚ := (mget m k).getD 0

/-- `map.set(k, v)`: update the value of an existing key in place (keeping its
position in iteration order), otherwise append a new entry at the end. -/
def mset : JMap → String → ℚ → JMap
  | [], k, v => [(k, v)]
  | e :: m, k, v => if e.1 = k then (k, v) :: m else e :: mset m k v

/-- The keys of a map, in iteration order. -/
def keys (m : JMap) : List String := m.map Prod.fst

/-- Sum of a map's values, in iteration order (the accumulation loops of the
source walk `map.values()` this way). -/
def sumValues (m : JMap) : ℚ := m.foldl (fun s e => s + e.2) 0

/-- `types/index.ts`: `SplitType = 'equal' | 'percentage' | 'fixed' | 'shares'`. -/
inductive SplitType where
  | equal
  | percentage
  | fixed
  | shares
deriving DecidableEq

/-- `types/index.ts`: `SplitDetail` — per-participant split parameter. -/
structure SplitDetail where
  participant : String
  amount : Option ℚ := none
  percentage : Option ℚ := none
  shares : Option ℚ := none
deriving DecidableEq

/-- `types/index.ts`: `Transaction` (fields not read by the core are omitted). -/
structure Transaction where
  paidBy : String
  amount : ℚ
  participants : List String
  splitType : SplitType
  splitDetails : List SplitDetail
deriving DecidableEq

/-- `types/index.ts`: `Balance`. -/
structure Balance where
  participant : String
  amount : ℚ
deriving DecidableEq

/-- `types/index.ts`: `Settlement`.  `from` and `to` are Lean keywords, hence
the trailing underscores. -/
structure Settlement where
  from_ : String
  to_ : String
  amount : ℚ
deriving DecidableEq

/-- `types/index.ts`: `ValidationError`; only the `field` discriminates the two
errors `validateSplit` can produce, so the free-text `message`/`value` payloads
are omitted. -/
structure ValidationError where
  field : String
deriving DecidableEq

/-! ## `lib/split.ts` -/

/-- `calculateEqualSplit` (split.ts lines 40–54): floor each share to 2
decimals and add the rounded leftover to the first participant.  (For an empty
participant list both the JS loop and this fold produce the empty map; the
division-by-zero base amount is never used.) -/
def calculateEqualSplit (amount : ℚ) (participants : List String) : JMap :=
  let baseAmount := floor2 (amount / (participants.length : ℚ))
  let remainder := round2 (amount - baseAmount * (participants.length : ℚ))
  participants.enum.foldl
    (fun result ip =>
      mset result ip.2 (round2 (if ip.1 = 0 then baseAmount + remainder else baseAmount)))
    []

/-- `calculateFixedSplit` (split.ts lines 59–69): use declared amounts
verbatim, skipping entries with no amount. -/
def calculateFixedSplit (splitDetails : List SplitDetail) : JMap :=
  splitDetails.foldl
    (fun result detail =>
      match detail.amount with
      | some a => mset result detail.participant a
      | none => result)
    []

/-- First pass shared by `calculatePercentageSplit` and `calculateShareSplit`
(split.ts lines 79–87 and 114–122): for every detail entry whose parameter
(`sel`) is defined, store `f parameter` for its participant and accumulate the
running total `totalCalculated`. -/
def detailPass (sel : SplitDetail → Option ℚ) (f : ℚ → ℚ)
    (splitDetails : List SplitDetail) : JMap × ℚ :=
  splitDetails.foldl
    (fun acc detail =>
      match sel detail with
      | some x => (mset acc.1 detail.participant (f x), acc.2 + f x)
      | none => acc)
    ([], 0)

/-- Rounding adjustment shared by `calculatePercentageSplit` and
`calculateShareSplit` (split.ts lines 89–95 and 124–130): when the rounded
difference between the amount and the running total is non-zero, add it to the
last detail entry's participant (`result.get(p) || 0` plus the difference). -/
def adjustLast (amount : ℚ) (splitDetails : List SplitDetail) (pass : JMap × ℚ) : JMap :=
  let diff := round2 (amount - pass.2)
  if diff = 0 then pass.1
  else
    match splitDetails.getLast? with
    | none => pass.1
    | some last => mset pass.1 last.participant (mgetD pass.1 last.participant + diff)

/-- `calculatePercentageSplit` (split.ts lines 74–98). -/
def calculatePercentageSplit (amount : ℚ) (splitDetails : List SplitDetail) : JMap :=
  adjustLast amount splitDetails
    (detailPass (fun d => d.percentage) (fun p => round2 (amount * p / 100)) splitDetails)

/-- `totalShares` of `calculateShareSplit` (split.ts line 105):
`reduce((sum, d) => sum + (d.shares || 0), 0)`. -/
def totalSharesOf (splitDetails : List SplitDetail) : ℚ :=
  splitDetails.foldl (fun s d => s + d.shares.getD 0) 0

/-- `calculateShareSplit` (split.ts lines 103–133): empty map when the total
share count is zero. -/
def calculateShareSplit (amount : ℚ) (splitDetails : List SplitDetail) : JMap :=
  let totalShares := totalSharesOf splitDetails
  if totalShares = 0 then []
  else adjustLast amount splitDetails
    (detailPass (fun d => d.shares) (fun s => round2 (amount * s / totalShares)) splitDetails)

/-- `calculateSplitAmounts` (split.ts lines 14–35).  The JS `default` branch
(equal split) is unreachable for the four-valued `SplitType`. -/
def calculateSplitAmounts (transaction : Transaction) : JMap :=
  match transaction.splitType with
  | .equal => calculateEqualSplit transaction.amount transaction.participants
  | .fixed => calculateFixedSplit transaction.splitDetails
  | .percentage => calculatePercentageSplit transaction.amount transaction.splitDetails
  | .shares => calculateShareSplit transaction.amount transaction.splitDetails

/-- `validateSplit` (split.ts lines 138–169): a total function returning error
values (the source never throws).  First error: recomputed split sum differs
from the amount by more than `0.02`; second error: equal split whose payer is
not among the participants. -/
def validateSplit (transaction : Transaction) : List ValidationError :=
  let splitAmounts := calculateSplitAmounts transaction
  let totalSplit := sumValues splitAmounts
  let diffErrors : List ValidationError :=
    if |totalSplit - transaction.amount| > 2/100 then [⟨"splitDetails"⟩] else []
  let payerErrors : List ValidationError :=
    if transaction.splitType = .equal ∧ transaction.paidBy ∉ transaction.participants
    then [⟨"participants"⟩] else []
  diffErrors ++ payerErrors

/-! ## `lib/settlement.ts` -/

/-- One iteration of the transaction loop of `calculateBalances`
(settlement.ts lines 33–53): credit the full amount to the payer, then debit
each split participant's share. -/
def processTransaction (balanceMap : JMap) (transaction : Transaction) : JMap :=
  let m1 := mset balanceMap transaction.paidBy
    (mgetD balanceMap transaction.paidBy + transaction.amount)
  (calculateSplitAmounts transaction).foldl
    (fun m e => mset m e.1 (mgetD m e.1 - e.2)) m1

/-- Final rounding of `calculateBalances` (settlement.ts lines 66–68): round
to 2 decimals, then snap magnitudes below `0.01` to exactly `0`. -/
def snapBalance (x : ℚ) : ℚ :=
  let r := round2 x
  if |r| < 1/100 then 0 else r

/-- Stable insertion step for the descending sort below. -/
def insertByDesc {α : Type} (key : α → ℚ) (x : α) : List α → List α
  | [] => [x]
  | y :: ys => if key x ≥ key y then x :: y :: ys else y :: insertByDesc key x ys

/-- `arr.sort((a, b) => b.key - a.key)`: stable descending sort (JavaScript's
`Array.prototype.sort` is stable, and this comparator orders by `key`
descending, preserving original order on ties). -/
def sortByDesc {α : Type} (key : α → ℚ) (l : List α) : List α :=
  l.foldr (insertByDesc key) []

/-- `calculateBalances` (settlement.ts lines 18–94). -/
def calculateBalances (transactions : List Transaction)
    (allParticipants : Option (List String)) : List Balance :=
  let m0 : JMap :=
    match allParticipants with
    | some ps => ps.foldl (fun m p => mset m p 0) []
    | none => []
  let m := transactions.foldl processTransaction m0
  let balances := m.map (fun e => Balance.mk e.1 (snapBalance e.2))
  let balances2 :=
    match allParticipants with
    | some ps =>
      let existing := balances.map (fun b => b.participant)
      balances ++ (ps.filter (fun p => decide (p ∉ existing))).map (fun p => Balance.mk p 0)
    | none => balances
  sortByDesc Balance.amount balances2

/-- A creditor/debtor work item of `calculateOptimizedSettlements`
(`{participant, amount}` with `amount` the remaining magnitude). -/
structure Entry where
  participant : String
  amount : ℚ
deriving DecidableEq

/-- The `balanceMap` copy made by `calculateOptimizedSettlements`
(settlement.ts lines 109–112) and by `validateSettlements` (lines 295–299). -/
def balanceMapOf (balances : List Balance) : JMap :=
  balances.foldl (fun m b => mset m b.participant b.amount) []

/-- Creditor partition (settlement.ts lines 118–120): map entries with amount
strictly above `0.01`, in map iteration order. -/
def creditorsOf (m : JMap) : List Entry :=
  (m.filter (fun e => decide (e.2 > 1/100))).map (fun e => Entry.mk e.1 e.2)

/-- Debtor partition (settlement.ts lines 121–123): map entries with amount
strictly below `-0.01`, stored as positive magnitudes, in map iteration order. -/
def debtorsOf (m : JMap) : List Entry :=
  (m.filter (fun e => decide (e.2 < -(1/100)))).map (fun e => Entry.mk e.1 |e.2|)

/-- The two-cursor greedy loop of `calculateOptimizedSettlements`
(settlement.ts lines 147–207).  Cursors are modelled by consuming list heads:
advancing `i` (resp. `j`) drops the current creditor (resp. debtor).  The two
leading guards mirror the `skip if already settled` checks.  After a transfer
of `min` both remainders are recomputed; at least one of them is `0 ≤ 0.01`,
so the final `else` branch (neither cursor advances — an infinite loop in the
source) is unreachable; it is given the same settlements-so-far shape as the
both-settled branch. -/
def settleLoop : List Entry → List Entry → List Settlement
  | [], _ => []
  | _ :: _, [] => []
  | c :: cs, d :: ds =>
    if c.amount ≤ 1/100 then settleLoop cs (d :: ds)
    else if d.amount ≤ 1/100 then settleLoop (c :: cs) ds
    else
      let s := min c.amount d.amount
      let out : Settlement := ⟨d.participant, c.participant, round2 s⟩
      let c2 := c.amount - s
      let d2 := d.amount - s
      if c2 ≤ 1/100 then
        if d2 ≤ 1/100 then out :: settleLoop cs ds
        else out :: settleLoop cs (⟨d.participant, d2⟩ :: ds)
      else if d2 ≤ 1/100 then out :: settleLoop (⟨c.participant, c2⟩ :: cs) ds
      else out :: settleLoop cs ds
  termination_by cs ds => cs.length + ds.length

/-- `calculateOptimizedSettlements` (settlement.ts lines 100–215): build the
balance map, partition into creditors and debtors, sort both descending by
amount (stable), and run the greedy matching loop.  (The `settlementAmount >
0.01` guard of line 179 always holds inside the loop, since both current
amounts strictly exceed `0.01`; see `settleLoop`.) -/
def calculateOptimizedSettlements (balances : List Balance) : List Settlement :=
  let balanceMap := balanceMapOf balances
  let creditors := sortByDesc Entry.amount (creditorsOf balanceMap)
  let debtors := sortByDesc Entry.amount (debtorsOf balanceMap)
  settleLoop creditors debtors

/-- One settlement application of `validateSettlements` (settlement.ts lines
303–309): both old balances are read before either write. -/
def applySettlement (m : JMap) (s : Settlement) : JMap :=
  let fromBalance := mgetD m s.from_
  let toBalance := mgetD m s.to_
  mset (mset m s.from_ (fromBalance + s.amount)) s.to_ (toBalance - s.amount)

/-- `validateSettlements` (settlement.ts lines 286–321): apply every
settlement to a copy of the balances and check that every remaining balance
has magnitude at most `0.01`. -/
def validateSettlements (balances : List Balance) (settlements : List Settlement) : Bool :=
  let expected := settlements.foldl applySettlement (balanceMapOf balances)
  expected.all (fun e => decide (|e.2| ≤ 1/100))

/-! ## Rounding lemmas -/

theorem is2dp_iff {x : ℚ} : is2dp x ↔ ∃ k : ℤ, x = (k : ℚ) / 100 := by
  constructor
  · intro h
    refine ⟨(x * 100).num, ?_⟩
    have := (Rat.den_eq_one_iff (x * 100)).mp h
    field_simp
    linarith [this]
  · rintro ⟨k, rfl⟩
    unfold is2dp
    have : (k : ℚ) / 100 * 100 = (k : ℚ) := by field_simp
    rw [this, Rat.den_intCast]

theorem is2dp_zero : is2dp 0 := by
  rw [is2dp_iff]; exact ⟨0, by norm_num⟩

theorem is2dp_add {x y : ℚ} (hx : is2dp x) (hy : is2dp y) : is2dp (x + y) := by
  rw [is2dp_iff] at hx hy ⊢
  obtain ⟨a, rfl⟩ := hx
  obtain ⟨b, rfl⟩ := hy
  exact ⟨a + b, by push_cast; ring⟩

theorem is2dp_neg {x : ℚ} (hx : is2dp x) : is2dp (-x) := by
  rw [is2dp_iff] at hx ⊢
  obtain ⟨a, rfl⟩ := hx
  exact ⟨-a, by push_cast; ring⟩

theorem is2dp_sub {x y : ℚ} (hx : is2dp x) (hy : is2dp y) : is2dp (x - y) := by
  rw [sub_eq_add_neg]; exact is2dp_add hx (is2dp_neg hy)

theorem is2dp_mul_natCast {x : ℚ} (hx : is2dp x) (n : ℕ) : is2dp (x * (n : ℚ)) := by
  rw [is2dp_iff] at hx ⊢
  obtain ⟨a, rfl⟩ := hx
  exact ⟨a * n, by push_cast; ring⟩

theorem is2dp_round2 (x : ℚ) : is2dp (round2 x) := by
  rw [is2dp_iff]; exact ⟨jround (x * 100), rfl⟩

theorem is2dp_floor2 (x : ℚ) : is2dp (floor2 x) := by
  rw [is2dp_iff]; exact ⟨⌊x * 100⌋, rfl⟩

theorem round2_eq_self {x : ℚ} (hx : is2dp x) : round2 x = x := by
  rw [is2dp_iff] at hx
  obtain ⟨k, rfl⟩ := hx
  have h1 : (k : ℚ) / 100 * 100 = (k : ℚ) := by field_simp
  rw [round2, jround, h1, Int.floor_int_add, show ⌊(1 : ℚ)/2⌋ = 0 by norm_num]
  push_cast
  ring

theorem abs_round2_sub_le (x : ℚ) : |round2 x - x| ≤ 1/200 := by
  have h1 : (⌊x * 100 + 1/2⌋ : ℚ) ≤ x * 100 + 1/2 := Int.floor_le _
  have h2 : x * 100 + 1/2 - 1 < (⌊x * 100 + 1/2⌋ : ℚ) := Int.sub_one_lt_floor _
  rw [round2, jround, abs_le]
  constructor <;> [linarith; linarith]

theorem round2_ge_of_gt {x : ℚ} (h : 1/100 < x) : 1/100 ≤ round2 x := by
  have h1 : (1 : ℤ) ≤ ⌊x * 100 + 1/2⌋ := by
    rw [Int.le_floor]
    push_cast
    linarith
  rw [round2, jround]
  have : (1 : ℚ) ≤ (⌊x * 100 + 1/2⌋ : ℚ) := by exact_mod_cast h1
  linarith

theorem round2_eq_zero_of_small {x : ℚ} (h2 : is2dp x) (h : |x| < 1/100) : x = 0 := by
  rw [is2dp_iff] at h2
  obtain ⟨k, rfl⟩ := h2
  have hk : |(k : ℚ)| < 1 := by
    rw [abs_div, abs_of_pos (by norm_num : (0:ℚ) < 100)] at h
    linarith
  have : k = 0 := by
    by_contra hne
    have : (1 : ℚ) ≤ |(k : ℚ)| := by
      rw [show |(k : ℚ)| = ((|k| : ℤ) : ℚ) by push_cast; rfl]
      exact_mod_cast Int.one_le_abs hne
    linarith
  simp [this]

/-- The near-zero snap of `calculateBalances` is the identity on already
rounded values: a multiple of `0.01` with magnitude below `0.01` is `0`. -/
theorem snapBalance_eq_round2 (x : ℚ) : snapBalance x = round2 x := by
  unfold snapBalance
  by_cases h : |round2 x| < 1/100
  · simp only [if_pos h]
    exact (round2_eq_zero_of_small (is2dp_round2 x) h).symm
  · simp only [if_neg h]

/-! ## Map lemmas -/

theorem mget_cons_self {e : String × ℚ} {m : JMap} : mget (e :: m) e.1 = some e.2 := by
  simp [mget]

theorem mget_cons_ne {e : String × ℚ} {m : JMap} {k : String} (h : e.1 ≠ k) :
    mget (e :: m) k = mget m k := by
  simp [mget, h]

theorem mget_mset_self (m : JMap) (k : String) (v : ℚ) : mget (mset m k v) k = some v := by
  induction m with
  | nil => simp [mset, mget]
  | cons e m ih =>
    by_cases h : e.1 = k
    · simp [mset, h, mget]
    · simp [mset, h, mget, ih]

theorem mget_mset_ne (m : JMap) {k k' : String} (v : ℚ) (h : k' ≠ k) :
    mget (mset m k v) k' = mget m k' := by
  induction m with
  | nil => simp [mset, mget, Ne.symm h]
  | cons e m ih =>
    by_cases he : e.1 = k
    · rw [mset, if_pos he]
      have h1 : (k, v).1 ≠ k' := fun hh => h hh.symm
      have h2 : e.1 ≠ k' := by rw [he]; exact fun hh => h hh.symm
      rw [mget_cons_ne h1, mget_cons_ne h2]
    · rw [mset, if_neg he]
      by_cases he' : e.1 = k'
      · simp only [mget, if_pos he']
      · rw [mget_cons_ne he', mget_cons_ne he', ih]

theorem mgetD_mset_self (m : JMap) (k : String) (v : ℚ) : mgetD (mset m k v) k = v := by
  simp [mgetD, mget_mset_self]

theorem mgetD_mset_ne (m : JMap) {k k' : String} (v : ℚ) (h : k' ≠ k) :
    mgetD (mset m k v) k' = mgetD m k' := by
  simp [mgetD, mget_mset_ne m v h]

theorem mem_mset {e : String × ℚ} {m : JMap} {k : String} {v : ℚ} (h : e ∈ mset m k v) :
    e ∈ m ∨ e = (k, v) := by
  induction m with
  | nil => simp [mset] at h; simp [h]
  | cons e' m ih =>
    by_cases he : e'.1 = k
    · rw [mset, if_pos he] at h
      rcases List.mem_cons.mp h with h | h
      · right; exact h
      · left; exact List.mem_cons_of_mem _ h
    · rw [mset, if_neg he] at h
      rcases List.mem_cons.mp h with h | h
      · left; exact h ▸ List.mem_cons_self _ _
      · rcases ih h with h | h
        · left; exact List.mem_cons_of_mem _ h
        · right; exact h

theorem keys_mset_of_mem {m : JMap} {k : String} (v : ℚ) (h : k ∈ keys m) :
    keys (mset m k v) = keys m := by
  induction m with
  | nil => simp [keys] at h
  | cons e m ih =>
    by_cases he : e.1 = k
    · simp [mset, he, keys]
    · simp only [keys, List.map_cons] at h
      rcases List.mem_cons.mp h with h | h
      · exact absurd h.symm he
      · rw [mset, if_neg he]
        have hih := ih h
        simp only [keys, List.map_cons] at hih ⊢
        rw [hih]

theorem keys_mset_of_not_mem {m : JMap} {k : String} (v : ℚ) (h : k ∉ keys m) :
    keys (mset m k v) = keys m ++ [k] := by
  induction m with
  | nil => simp [mset, keys]
  | cons e m ih =>
    simp only [keys, List.map_cons, List.mem_cons] at h
    push_neg at h
    have h1 : e.1 ≠ k := fun hh => h.1 hh.symm
    rw [mset, if_neg h1]
    have hih := ih (by simpa [keys] using h.2)
    simp only [keys, List.map_cons] at hih ⊢
    rw [hih]
    rfl

theorem mset_eq_append_of_not_mem {m : JMap} {k : String} (v : ℚ) (h : k ∉ keys m) :
    mset m k v = m ++ [(k, v)] := by
  induction m with
  | nil => simp [mset]
  | cons e m ih =>
    simp only [keys, List.map_cons, List.mem_cons] at h
    push_neg at h
    have h1 : e.1 ≠ k := fun hh => h.1 hh.symm
    rw [mset, if_neg h1, ih (by simpa [keys] using h.2)]
    rfl

theorem keys_nodup_mset {m : JMap} (k : String) (v : ℚ) (h : (keys m).Nodup) :
    (keys (mset m k v)).Nodup := by
  by_cases hk : k ∈ keys m
  · rw [keys_mset_of_mem v hk]; exact h
  · rw [keys_mset_of_not_mem v hk]
    refine List.Nodup.append h (List.nodup_singleton k) ?_
    intro a ha hb
    rw [List.mem_singleton] at hb
    exact hk (hb ▸ ha)

theorem mget_eq_none_of_not_mem {m : JMap} {k : String} (h : k ∉ keys m) :
    mget m k = none := by
  induction m with
  | nil => rfl
  | cons e m ih =>
    simp only [keys, List.map_cons, List.mem_cons] at h
    push_neg at h
    rw [mget_cons_ne (fun hh => h.1 hh.symm)]
    exact ih (by simpa [keys] using h.2)

theorem mget_eq_some_of_mem {m : JMap} (hnd : (keys m).Nodup) {e : String × ℚ}
    (he : e ∈ m) : mget m e.1 = some e.2 := by
  induction m with
  | nil => simp at he
  | cons e' m ih =>
    rcases List.mem_cons.mp he with h | h
    · subst h; exact mget_cons_self
    · have h1 : e'.1 ≠ e.1 := by
        intro hh
        have : e.1 ∈ keys m := List.mem_map_of_mem Prod.fst h
        exact (List.nodup_cons.mp hnd).1 (hh ▸ this)
      rw [mget_cons_ne h1]
      exact ih (List.nodup_cons.mp hnd).2 h

theorem mem_of_mget_eq_some {m : JMap} {k : String} {v : ℚ} (h : mget m k = some v) :
    (k, v) ∈ m := by
  induction m with
  | nil => simp [mget] at h
  | cons e m ih =>
    by_cases he : e.1 = k
    · rw [mget, if_pos he] at h
      obtain ⟨a, b⟩ := e
      simp only at he
      injection h with h
      subst he
      subst h
      exact List.mem_cons_self _ _
    · rw [mget, if_neg he] at h
      exact List.mem_cons_of_mem _ (ih h)

theorem sumValues_foldl (m : JMap) :
    ∀ a : ℚ, m.foldl (fun s e => s + e.2) a = a + (m.map Prod.snd).sum := by
  induction m with
  | nil => intro a; simp
  | cons e m ih =>
    intro a
    simp only [List.foldl_cons, List.map_cons, List.sum_cons]
    rw [ih]
    ring

theorem sumValues_eq (m : JMap) : sumValues m = (m.map Prod.snd).sum := by
  unfold sumValues
  rw [sumValues_foldl]
  ring

theorem sumValues_cons (e : String × ℚ) (m : JMap) :
    sumValues (e :: m) = e.2 + sumValues m := by
  simp [sumValues_eq]

theorem sumValues_mset_add (m : JMap) (k : String) (d : ℚ) :
    sumValues (mset m k (mgetD m k + d)) = sumValues m + d := by
  induction m with
  | nil => simp [mset, mgetD, mget, sumValues_eq]
  | cons e m ih =>
    by_cases he : e.1 = k
    · rw [mset, if_pos he, mgetD, mget, if_pos he]
      simp only [Option.getD_some]
      rw [sumValues_cons, sumValues_cons]
      ring
    · rw [mset, if_neg he, mgetD, mget, if_neg he]
      rw [sumValues_cons, sumValues_cons, ← mgetD]
      rw [ih]
      ring

theorem sumValues_append (m1 m2 : JMap) :
    sumValues (m1 ++ m2) = sumValues m1 + sumValues m2 := by
  simp [sumValues_eq]

/-- Count of entries whose value satisfies `q`. -/
def countV (m : JMap) (q : ℚ → Bool) : ℕ := m.countP (fun e => q e.2)

theorem countV_mset_le (m : JMap) (k : String) (v : ℚ) (q : ℚ → Bool) :
    countV (mset m k v) q ≤ countV m q + (if q v then 1 else 0) := by
  induction m with
  | nil => simp [mset, countV, List.countP_cons]
  | cons e m ih =>
    by_cases he : e.1 = k
    · rw [mset, if_pos he]
      unfold countV at *
      rw [List.countP_cons, List.countP_cons]
      by_cases hv : q v <;> by_cases hev : q e.2 <;> simp [hv, hev]
    · rw [mset, if_neg he]
      unfold countV at *
      rw [List.countP_cons, List.countP_cons]
      by_cases hev : q e.2 <;> simp [hev] <;> omega

/-! ## Sort lemmas -/

theorem insertByDesc_perm {α : Type} (key : α → ℚ) (x : α) (l : List α) :
    List.Perm (insertByDesc key x l) (x :: l) := by
  induction l with
  | nil => exact List.Perm.refl _
  | cons y ys ih =>
    rw [insertByDesc]
    by_cases h : key x ≥ key y
    · rw [if_pos h]
    · rw [if_neg h]
      exact (List.Perm.cons y ih).trans (List.Perm.swap x y ys)

theorem sortByDesc_perm {α : Type} (key : α → ℚ) (l : List α) :
    List.Perm (sortByDesc key l) l := by
  induction l with
  | nil => exact List.Perm.refl _
  | cons x xs ih =>
    have h : sortByDesc key (x :: xs) = insertByDesc key x (sortByDesc key xs) := rfl
    rw [h]
    exact (insertByDesc_perm key x _).trans (List.Perm.cons x ih)

theorem sortByDesc_length {α : Type} (key : α → ℚ) (l : List α) :
    (sortByDesc key l).length = l.length :=
  (sortByDesc_perm key l).length_eq

theorem sortByDesc_mem {α : Type} (key : α → ℚ) {x : α} {l : List α} :
    x ∈ sortByDesc key l ↔ x ∈ l :=
  (sortByDesc_perm key l).mem_iff

/-! ## Fresh-key fold lemmas -/

/-- Repeated `map.set` with pairwise distinct keys, none already present,
appends the corresponding entries in order. -/
theorem foldl_mset_fresh {β : Type} (f : β → String) (g : β → ℚ) :
    ∀ (l : List β) (m0 : JMap), (l.map f).Nodup → (∀ b ∈ l, f b ∉ keys m0) →
      l.foldl (fun m b => mset m (f b) (g b)) m0 = m0 ++ l.map (fun b => (f b, g b)) := by
  intro l
  induction l with
  | nil => intro m0 _ _; simp
  | cons b l ih =>
    intro m0 hnd hfresh
    have hnd' : f b ∉ List.map f l ∧ (List.map f l).Nodup := by
      rw [List.map_cons] at hnd
      exact List.nodup_cons.mp hnd
    simp only [List.foldl_cons, List.map_cons]
    rw [mset_eq_append_of_not_mem (g b) (hfresh b (List.mem_cons_self _ _))]
    rw [ih (m0 ++ [(f b, g b)]) hnd'.2]
    · simp
    · intro b' hb'
      rw [keys, List.map_append]
      simp only [List.mem_append]
      push_neg
      constructor
      · exact hfresh b' (List.mem_cons_of_mem _ hb')
      · simp only [List.map_cons, List.map_nil, List.mem_singleton]
        intro hc
        exact hnd'.1 (hc ▸ List.mem_map_of_mem f hb')

/-- The balance map copy is the balance list itself when participants are
pairwise distinct. -/
theorem balanceMapOf_eq_of_nodup {balances : List Balance}
    (h : (balances.map (fun b => b.participant)).Nodup) :
    balanceMapOf balances = balances.map (fun b => (b.participant, b.amount)) := by
  unfold balanceMapOf
  have := foldl_mset_fresh (fun b : Balance => b.participant) (fun b => b.amount)
    balances [] h (by simp [keys])
  simpa using this

/-! ## Greedy-loop lemmas -/

/-- Each loop iteration that emits a settlement also retires at least one of
the two current entries, so at most `n - 1` settlements are emitted for `n`
partition entries. -/
theorem settleLoop_length (cs ds : List Entry) :
    (settleLoop cs ds).length ≤ cs.length + ds.length - 1 := by
  induction cs, ds using settleLoop.induct with
  | case1 ds => simp [settleLoop]
  | case2 c cs => simp [settleLoop]
  | case3 c cs d ds h1 ih =>
    rw [settleLoop, if_pos h1]
    simp only [List.length_cons] at ih ⊢
    omega
  | case4 c cs d ds h1 h2 ih =>
    rw [settleLoop, if_neg h1, if_pos h2]
    simp only [List.length_cons] at ih ⊢
    omega
  | case5 c cs d ds h1 h2 s c2 d2 hc2 hd2 ih =>
    rw [settleLoop, if_neg h1, if_neg h2]
    rw [if_pos (show c.amount - min c.amount d.amount ≤ 1/100 from hc2),
        if_pos (show d.amount - min c.amount d.amount ≤ 1/100 from hd2)]
    simp only [List.length_cons] at ih ⊢
    omega
  | case6 c cs d ds h1 h2 s c2 d2 hc2 hd2 ih =>
    rw [settleLoop, if_neg h1, if_neg h2]
    rw [if_pos (show c.amount - min c.amount d.amount ≤ 1/100 from hc2),
        if_neg (show ¬ d.amount - min c.amount d.amount ≤ 1/100 from hd2)]
    have ih' : (settleLoop cs
        (({ participant := d.participant,
            amount := d.amount - min c.amount d.amount } : Entry) :: ds)).length ≤
        cs.length + (ds.length + 1) - 1 := ih
    simp only [List.length_cons] at ih' ⊢
    omega
  | case7 c cs d ds h1 h2 s c2 d2 hc2 hd2 ih =>
    rw [settleLoop, if_neg h1, if_neg h2]
    rw [if_neg (show ¬ c.amount - min c.amount d.amount ≤ 1/100 from hc2),
        if_pos (show d.amount - min c.amount d.amount ≤ 1/100 from hd2)]
    have ih' : (settleLoop
        (({ participant := c.participant,
            amount := c.amount - min c.amount d.amount } : Entry) :: cs) ds).length ≤
        (cs.length + 1) + ds.length - 1 := ih
    simp only [List.length_cons] at ih' ⊢
    omega
  | case8 c cs d ds h1 h2 s c2 d2 hc2 hd2 ih =>
    rw [settleLoop, if_neg h1, if_neg h2]
    rw [if_neg (show ¬ c.amount - min c.amount d.amount ≤ 1/100 from hc2),
        if_neg (show ¬ d.amount - min c.amount d.amount ≤ 1/100 from hd2)]
    simp only [List.length_cons] at ih ⊢
    omega

/-- Every emitted settlement's payer is a debtor participant, its payee is a
creditor participant, and its amount is the 2-decimal rounding of a transfer
strictly above `0.01`, hence at least `0.01`. -/
theorem settleLoop_mem (cs ds : List Entry) (out : Settlement)
    (hout : out ∈ settleLoop cs ds) :
    out.from_ ∈ ds.map (fun e => e.participant) ∧
    out.to_ ∈ cs.map (fun e => e.participant) ∧
    1/100 ≤ out.amount := by
  induction cs, ds using settleLoop.induct with
  | case1 ds => simp [settleLoop] at hout
  | case2 c cs => simp [settleLoop] at hout
  | case3 c cs d ds h1 ih =>
    rw [settleLoop, if_pos h1] at hout
    obtain ⟨hf, ht, ha⟩ := ih hout
    exact ⟨hf, List.mem_map.mpr (by
      obtain ⟨e, he, hee⟩ := List.mem_map.mp ht
      exact ⟨e, List.mem_cons_of_mem _ he, hee⟩), ha⟩
  | case4 c cs d ds h1 h2 ih =>
    rw [settleLoop, if_neg h1, if_pos h2] at hout
    obtain ⟨hf, ht, ha⟩ := ih hout
    exact ⟨List.mem_map.mpr (by
      obtain ⟨e, he, hee⟩ := List.mem_map.mp hf
      exact ⟨e, List.mem_cons_of_mem _ he, hee⟩), ht, ha⟩
  | case5 c cs d ds h1 h2 s c2 d2 hc2 hd2 ih =>
    rw [settleLoop, if_neg h1, if_neg h2] at hout
    rw [if_pos (show c.amount - min c.amount d.amount ≤ 1/100 from hc2),
        if_pos (show d.amount - min c.amount d.amount ≤ 1/100 from hd2)] at hout
    rcases List.mem_cons.mp hout with h | h
    · subst h
      refine ⟨by simp, by simp, ?_⟩
      exact round2_ge_of_gt (lt_min (not_le.mp h1) (not_le.mp h2))
    · obtain ⟨hf, ht, ha⟩ := ih h
      exact ⟨List.mem_map.mpr (by
        obtain ⟨e, he, hee⟩ := List.mem_map.mp hf
        exact ⟨e, List.mem_cons_of_mem _ he, hee⟩),
        List.mem_map.mpr (by
        obtain ⟨e, he, hee⟩ := List.mem_map.mp ht
        exact ⟨e, List.mem_cons_of_mem _ he, hee⟩), ha⟩
  | case6 c cs d ds h1 h2 s c2 d2 hc2 hd2 ih =>
    rw [settleLoop, if_neg h1, if_neg h2] at hout
    rw [if_pos (show c.amount - min c.amount d.amount ≤ 1/100 from hc2),
        if_neg (show ¬ d.amount - min c.amount d.amount ≤ 1/100 from hd2)] at hout
    rcases List.mem_cons.mp hout with h | h
    · subst h
      refine ⟨by simp, by simp, ?_⟩
      exact round2_ge_of_gt (lt_min (not_le.mp h1) (not_le.mp h2))
    · obtain ⟨hf, ht, ha⟩ := ih h
      refine ⟨?_, List.mem_map.mpr (by
        obtain ⟨e, he, hee⟩ := List.mem_map.mp ht
        exact ⟨e, List.mem_cons_of_mem _ he, hee⟩), ha⟩
      obtain ⟨e, he, hee⟩ := List.mem_map.mp hf
      rcases List.mem_cons.mp he with he' | he'
      · subst he'
        exact List.mem_map.mpr ⟨d, List.mem_cons_self _ _, hee⟩
      · exact List.mem_map.mpr ⟨e, List.mem_cons_of_mem _ he', hee⟩
  | case7 c cs d ds h1 h2 s c2 d2 hc2 hd2 ih =>
    rw [settleLoop, if_neg h1, if_neg h2] at hout
    rw [if_neg (show ¬ c.amount - min c.amount d.amount ≤ 1/100 from hc2),
        if_pos (show d.amount - min c.amount d.amount ≤ 1/100 from hd2)] at hout
    rcases List.mem_cons.mp hout with h | h
    · subst h
      refine ⟨by simp, by simp, ?_⟩
      exact round2_ge_of_gt (lt_min (not_le.mp h1) (not_le.mp h2))
    · obtain ⟨hf, ht, ha⟩ := ih h
      refine ⟨List.mem_map.mpr (by
        obtain ⟨e, he, hee⟩ := List.mem_map.mp hf
        exact ⟨e, List.mem_cons_of_mem _ he, hee⟩), ?_, ha⟩
      obtain ⟨e, he, hee⟩ := List.mem_map.mp ht
      rcases List.mem_cons.mp he with he' | he'
      · subst he'
        exact List.mem_map.mpr ⟨c, List.mem_cons_self _ _, hee⟩
      · exact List.mem_map.mpr ⟨e, List.mem_cons_of_mem _ he', hee⟩
  | case8 c cs d ds h1 h2 s c2 d2 hc2 hd2 ih =>
    rw [settleLoop, if_neg h1, if_neg h2] at hout
    rw [if_neg (show ¬ c.amount - min c.amount d.amount ≤ 1/100 from hc2),
        if_neg (show ¬ d.amount - min c.amount d.amount ≤ 1/100 from hd2)] at hout
    rcases List.mem_cons.mp hout with h | h
    · subst h
      refine ⟨by simp, by simp, ?_⟩
      exact round2_ge_of_gt (lt_min (not_le.mp h1) (not_le.mp h2))
    · obtain ⟨hf, ht, ha⟩ := ih h
      exact ⟨List.mem_map.mpr (by
        obtain ⟨e, he, hee⟩ := List.mem_map.mp hf
        exact ⟨e, List.mem_cons_of_mem _ he, hee⟩),
        List.mem_map.mpr (by
        obtain ⟨e, he, hee⟩ := List.mem_map.mp ht
        exact ⟨e, List.mem_cons_of_mem _ he, hee⟩), ha⟩

/-- The creditor and debtor partitions together contain exactly the map
entries of magnitude strictly above `0.01`. -/
theorem creditors_debtors_length (m : JMap) :
    (creditorsOf m).length + (debtorsOf m).length =
      m.countP (fun e => decide (1/100 < |e.2|)) := by
  induction m with
  | nil => rfl
  | cons e m ih =>
    unfold creditorsOf debtorsOf at ih ⊢
    simp only [List.filter_cons, List.countP_cons, List.length_map] at ih ⊢
    by_cases h1 : (1:ℚ)/100 < e.2
    · have h3 : (1:ℚ)/100 < |e.2| := lt_of_lt_of_le h1 (le_abs_self e.2)
      have h2 : ¬ e.2 < -(1/100) := by intro h; linarith
      simp only [decide_eq_true_eq, if_pos h1, if_neg h2, if_pos h3, List.length_cons]
      omega
    · by_cases h2 : e.2 < -(1/100)
      · have h3 : (1:ℚ)/100 < |e.2| := by
          rw [lt_abs]
          right
          linarith
        simp only [decide_eq_true_eq, if_neg h1, if_pos h2, if_pos h3, List.length_cons]
        omega
      · have h3 : ¬ (1:ℚ)/100 < |e.2| := by
          rw [lt_abs]
          push_neg
          constructor <;> [linarith; linarith]
        simp only [decide_eq_true_eq, if_neg h1, if_neg h2, if_neg h3]
        omega

/-- Counting through the deduplicating balance-map copy never increases the
count: each map entry's value is some balance-list entry's value, at distinct
keys. -/
theorem countV_balanceMapOf_le (balances : List Balance) (q : ℚ → Bool) :
    countV (balanceMapOf balances) q ≤ balances.countP (fun b => q b.amount) := by
  have h : ∀ (bs : List Balance) (m0 : JMap),
      countV (bs.foldl (fun m b => mset m b.participant b.amount) m0) q ≤
        countV m0 q + bs.countP (fun b => q b.amount) := by
    intro bs
    induction bs with
    | nil => intro m0; simp
    | cons b bs ih =>
      intro m0
      simp only [List.foldl_cons, List.countP_cons]
      refine le_trans (ih _) ?_
      have hle := countV_mset_le m0 b.participant b.amount q
      by_cases hq : q b.amount
      · simp only [hq, if_true] at hle ⊢
        omega
      · simp only [hq, Bool.false_eq_true, if_false] at hle ⊢
        omega
  have h0 := h balances []
  simpa [balanceMapOf, countV] using h0

/-! ## Split-map characterizations -/

theorem sum_map_const {α : Type} (l : List α) (c : ℚ) :
    (l.map (fun _ => c)).sum = (l.length : ℚ) * c := by
  induction l with
  | nil => simp
  | cons x l ih =>
    simp only [List.map_cons, List.sum_cons, List.length_cons, ih]
    push_cast
    ring

theorem keys_append (m1 m2 : JMap) : keys (m1 ++ m2) = keys m1 ++ keys m2 := by
  simp [keys]

theorem mget_append_left {m1 : JMap} (m2 : JMap) {k : String} {v : ℚ}
    (h : mget m1 k = some v) : mget (m1 ++ m2) k = some v := by
  induction m1 with
  | nil => simp [mget] at h
  | cons e m1 ih =>
    by_cases he : e.1 = k
    · rw [mget, if_pos he] at h
      rw [List.cons_append, mget, if_pos he]
      exact h
    · rw [mget, if_neg he] at h
      rw [List.cons_append, mget, if_neg he]
      exact ih h

theorem mget_map_self {g : String → ℚ} {l : List String} (hnd : l.Nodup) {q : String}
    (hq : q ∈ l) : mget (l.map (fun x => (x, g x))) q = some (g q) := by
  induction l with
  | nil => simp at hq
  | cons x l ih =>
    rcases List.mem_cons.mp hq with h | h
    · subst h
      exact mget_cons_self
    · have hx : x ≠ q := by
        intro hh
        exact (List.nodup_cons.mp hnd).1 (hh ▸ h)
      rw [List.map_cons, mget_cons_ne hx]
      exact ih (List.nodup_cons.mp hnd).2 h

/-- The tail iterations of the equal-split loop (indices ≥ 1) assign the base
amount to each remaining participant. -/
theorem equalSplit_fold_tail (b0 b : ℚ) (ps : List String) (j : ℕ) (m0 : JMap)
    (hj : 1 ≤ j) (hnd : ps.Nodup) (hfresh : ∀ q ∈ ps, q ∉ keys m0) :
    (ps.enumFrom j).foldl
      (fun result ip => mset result ip.2 (round2 (if ip.1 = 0 then b0 else b))) m0 =
      m0 ++ ps.map (fun q => (q, round2 b)) := by
  have h := foldl_mset_fresh (Prod.snd : ℕ × String → String)
    (fun ip => round2 (if ip.1 = 0 then b0 else b)) (ps.enumFrom j) m0 ?n ?f
  · rw [h]
    congr 1
    clear h hfresh hnd
    induction ps generalizing j with
    | nil => rfl
    | cons q qs ih =>
      rw [List.enumFrom_cons, List.map_cons, List.map_cons]
      have hj0 : j ≠ 0 := by omega
      rw [if_neg hj0]
      rw [ih (j + 1) (by omega)]
  case n => rw [List.enumFrom_map_snd]; exact hnd
  case f =>
    intro b' hb'
    have : b'.2 ∈ ps := by
      have := List.mem_map_of_mem Prod.snd hb'
      rwa [List.enumFrom_map_snd] at this
    exact hfresh b'.2 this

/-- Characterization of `calculateEqualSplit` on a non-empty duplicate-free
participant list: the head participant owes base + remainder, every other
participant owes the base amount. -/
theorem calculateEqualSplit_cons (a : ℚ) (p : String) (ps : List String)
    (hnd : (p :: ps).Nodup) :
    calculateEqualSplit a (p :: ps) =
      (p, floor2 (a / ((p :: ps).length : ℚ)) +
        round2 (a - floor2 (a / ((p :: ps).length : ℚ)) * ((p :: ps).length : ℚ))) ::
      ps.map (fun q => (q, floor2 (a / ((p :: ps).length : ℚ)))) := by
  unfold calculateEqualSplit
  set base := floor2 (a / ((p :: ps).length : ℚ)) with hbase
  set rem := round2 (a - base * ((p :: ps).length : ℚ)) with hrem
  have henum : (p :: ps).enum = (0, p) :: ps.enumFrom 1 := rfl
  rw [henum, List.foldl_cons]
  have h0 : mset ([] : JMap) p (round2 (if (0:ℕ) = 0 then base + rem else base)) =
      [(p, round2 (base + rem))] := by simp [mset]
  rw [h0]
  rw [equalSplit_fold_tail (base + rem) base ps 1 _ le_rfl (List.nodup_cons.mp hnd).2 ?f]
  · have h1 : round2 (base + rem) = base + rem :=
      round2_eq_self (is2dp_add (is2dp_floor2 _) (is2dp_round2 _))
    have h2 : round2 base = base := round2_eq_self (is2dp_floor2 _)
    rw [h1]
    simp only [List.singleton_append, h2]
  case f =>
    intro q hq
    simp only [keys, List.map_cons, List.map_nil, List.mem_singleton]
    intro hh
    exact (List.nodup_cons.mp hnd).1 (hh ▸ hq)

theorem mget_append_right {m1 : JMap} (m2 : JMap) {k : String}
    (h : mget m1 k = none) : mget (m1 ++ m2) k = mget m2 k := by
  induction m1 with
  | nil => simp
  | cons e m1 ih =>
    by_cases he : e.1 = k
    · rw [mget, if_pos he] at h
      exact absurd h (by simp)
    · rw [mget, if_neg he] at h
      rw [List.cons_append, mget, if_neg he]
      exact ih h

theorem is2dp_list_sum {l : List ℚ} (h : ∀ x ∈ l, is2dp x) : is2dp l.sum := by
  induction l with
  | nil => simpa using is2dp_zero
  | cons x l ih =>
    rw [List.sum_cons]
    exact is2dp_add (h x (List.mem_cons_self _ _))
      (ih (fun y hy => h y (List.mem_cons_of_mem _ hy)))

/-- The first pass of the percentage/share splits accumulates, over the detail
entries whose parameter is defined, the pair `(participant, f parameter)` into
the map and `f parameter` into the running total. -/
theorem detailPass_fold (sel : SplitDetail → Option ℚ) (f : ℚ → ℚ)
    (l : List SplitDetail) : ∀ (m0 : JMap) (t0 : ℚ),
    (l.map (fun d => d.participant)).Nodup →
    (∀ d ∈ l, d.participant ∉ keys m0) →
    l.foldl
      (fun acc detail =>
        match sel detail with
        | some x => (mset acc.1 detail.participant (f x), acc.2 + f x)
        | none => acc) (m0, t0) =
    (m0 ++ l.filterMap (fun d => (sel d).map (fun x => (d.participant, f x))),
      t0 + (l.filterMap (fun d => (sel d).map f)).sum) := by
  induction l with
  | nil => intro m0 t0 _ _; simp
  | cons d l ih =>
    intro m0 t0 hnd hfresh
    have hnd' : (l.map (fun d => d.participant)).Nodup := by
      rw [List.map_cons] at hnd
      exact (List.nodup_cons.mp hnd).2
    have hdn : d.participant ∉ l.map (fun d => d.participant) := by
      rw [List.map_cons] at hnd
      exact (List.nodup_cons.mp hnd).1
    rw [List.foldl_cons]
    cases hsel : sel d with
    | none =>
      simp only [hsel]
      rw [ih m0 t0 hnd' (fun d' hd' => hfresh d' (List.mem_cons_of_mem _ hd'))]
      simp [List.filterMap_cons, hsel]
    | some x =>
      simp only [hsel]
      rw [mset_eq_append_of_not_mem (f x) (hfresh d (List.mem_cons_self _ _))]
      rw [ih (m0 ++ [(d.participant, f x)]) (t0 + f x) hnd' ?fresh]
      · simp only [List.filterMap_cons, hsel, Option.map_some', List.sum_cons,
          Prod.mk.injEq]
        constructor
        · rw [List.append_assoc]
          rfl
        · ring
      case fresh =>
        intro d' hd'
        rw [keys_append]
        simp only [List.mem_append, keys, List.map_cons, List.map_nil,
          List.mem_singleton]
        push_neg
        refine ⟨hfresh d' (List.mem_cons_of_mem _ hd'), ?_⟩
        intro hc
        exact hdn (hc ▸ List.mem_map_of_mem (fun d => d.participant) hd')

/-- `detailPass` from the empty accumulator, for duplicate-free participants. -/
theorem detailPass_eq (sel : SplitDetail → Option ℚ) (f : ℚ → ℚ)
    (l : List SplitDetail) (hnd : (l.map (fun d => d.participant)).Nodup) :
    detailPass sel f l =
      (l.filterMap (fun d => (sel d).map (fun x => (d.participant, f x))),
        (l.filterMap (fun d => (sel d).map f)).sum) := by
  unfold detailPass
  rw [detailPass_fold sel f l [] 0 hnd (by simp [keys])]
  simp

theorem detailPass_concat (sel : SplitDetail → Option ℚ) (f : ℚ → ℚ)
    (init : List SplitDetail) (last : SplitDetail) :
    detailPass sel f (init ++ [last]) =
      match sel last with
      | some x => (mset (detailPass sel f init).1 last.participant (f x),
          (detailPass sel f init).2 + f x)
      | none => detailPass sel f init := by
  unfold detailPass
  rw [List.foldl_append, List.foldl_cons, List.foldl_nil]

/-- The keys produced by the defined-entries pass form a subsequence of the
detail participants. -/
theorem keys_filterMap_sublist (sel : SplitDetail → Option ℚ) (f : ℚ → ℚ)
    (l : List SplitDetail) :
    List.Sublist
      (keys (l.filterMap (fun d => (sel d).map (fun x => (d.participant, f x)))))
      (l.map (fun d => d.participant)) := by
  induction l with
  | nil => simp [keys]
  | cons d l ih =>
    rw [List.filterMap_cons, List.map_cons]
    cases hsel : sel d with
    | none =>
      simp only [Option.map_none']
      exact ih.cons _
    | some x =>
      simp only [Option.map_some']
      rw [show keys ((d.participant, f x) ::
        l.filterMap (fun d => (sel d).map (fun x => (d.participant, f x)))) =
        d.participant ::
          keys (l.filterMap (fun d => (sel d).map (fun x => (d.participant, f x))))
        from rfl]
      exact ih.cons₂ _

/-- Behaviour of the shared percentage/share pipeline (first pass followed by
the last-participant rounding adjustment) on a detail list `init ++ [last]`
with pairwise distinct participants, when every computed amount `g x` is a
whole number of cents: every defined `init` entry keeps its computed amount;
a defined last entry ends with exactly `amount - (sum of the init amounts)`;
an undefined last entry receives the non-zero rounded difference; and the
resulting values always sum to the amount (when it is a whole number of
cents). -/
theorem adjustLast_detailPass_spec (sel : SplitDetail → Option ℚ) (g : ℚ → ℚ)
    (a : ℚ) (init : List SplitDetail) (last : SplitDetail)
    (hnd : ((init ++ [last]).map (fun d => d.participant)).Nodup)
    (hg : ∀ y, is2dp (g y)) :
    (∀ d ∈ init, ∀ x, sel d = some x →
      mget (adjustLast a (init ++ [last]) (detailPass sel g (init ++ [last])))
        d.participant = some (g x)) ∧
    (is2dp a → ∀ x, sel last = some x →
      mget (adjustLast a (init ++ [last]) (detailPass sel g (init ++ [last])))
        last.participant =
        some (a - (init.filterMap (fun d => (sel d).map g)).sum)) ∧
    (sel last = none →
      round2 (a - (init.filterMap (fun d => (sel d).map g)).sum) ≠ 0 →
      mget (adjustLast a (init ++ [last]) (detailPass sel g (init ++ [last])))
        last.participant =
        some (round2 (a - (init.filterMap (fun d => (sel d).map g)).sum))) ∧
    (is2dp a →
      sumValues (adjustLast a (init ++ [last]) (detailPass sel g (init ++ [last]))) = a) := by
  set M := init.filterMap (fun d => (sel d).map (fun x => (d.participant, g x))) with hM
  set T := (init.filterMap (fun d => (sel d).map g)).sum with hT
  have hndsplit : (init.map (fun d => d.participant)).Nodup ∧
      last.participant ∉ init.map (fun d => d.participant) := by
    rw [List.map_append] at hnd
    obtain ⟨h1, h2, h3⟩ := List.nodup_append.mp hnd
    refine ⟨h1, fun hmem => ?_⟩
    exact h3 hmem (by simp)
  have hMnodup : (keys M).Nodup :=
    List.Nodup.sublist (keys_filterMap_sublist sel g init) hndsplit.1
  have hlastpM : last.participant ∉ keys M := fun hmem =>
    hndsplit.2 ((keys_filterMap_sublist sel g init).subset hmem)
  have hlastM : mget M last.participant = none := mget_eq_none_of_not_mem hlastpM
  have hMd : ∀ d ∈ init, ∀ x, sel d = some x → mget M d.participant = some (g x) := by
    intro d hd x hx
    exact mget_eq_some_of_mem hMnodup
      (List.mem_filterMap.mpr ⟨d, hd, by rw [hx]; rfl⟩)
  have hdlast : ∀ d ∈ init, d.participant ≠ last.participant := by
    intro d hd hc
    exact hndsplit.2 (hc ▸ List.mem_map_of_mem (fun d => d.participant) hd)
  have hsumM : sumValues M = T := by
    rw [sumValues_eq, hM, List.map_filterMap, hT]
    have hfun : (fun d : SplitDetail =>
        Option.map Prod.snd (Option.map (fun x => (d.participant, g x)) (sel d))) =
        (fun d => Option.map g (sel d)) := by
      funext d
      cases sel d <;> rfl
    rw [hfun]
  have hT2 : is2dp T := by
    rw [hT]
    apply is2dp_list_sum
    intro x hx
    obtain ⟨d, _, hdx⟩ := List.mem_filterMap.mp hx
    cases hsel : sel d with
    | none => rw [hsel] at hdx; simp at hdx
    | some y =>
      rw [hsel] at hdx
      simp only [Option.map_some', Option.some.injEq] at hdx
      rw [← hdx]
      exact hg y
  have hinit_eq : detailPass sel g init = (M, T) := detailPass_eq sel g init hndsplit.1
  cases hsel : sel last with
  | some x =>
    have hpass : detailPass sel g (init ++ [last]) =
        (mset M last.participant (g x), T + g x) := by
      rw [detailPass_concat, hsel, hinit_eq]
    have hmset : mset M last.participant (g x) = M ++ [(last.participant, g x)] :=
      mset_eq_append_of_not_mem _ hlastpM
    have hPget : mget (M ++ [(last.participant, g x)]) last.participant = some (g x) := by
      rw [mget_append_right _ hlastM]
      exact mget_cons_self
    have hsumP : sumValues (M ++ [(last.participant, g x)]) = T + g x := by
      rw [sumValues_append, hsumM, sumValues_cons]
      simp [sumValues]
    unfold adjustLast
    rw [hpass]
    simp only []
    by_cases hd0 : round2 (a - (T + g x)) = 0
    · rw [if_pos hd0, hmset]
      have hval : is2dp a → g x = a - T := by
        intro ha
        have h2 : round2 (a - (T + g x)) = a - (T + g x) :=
          round2_eq_self (is2dp_sub ha (is2dp_add hT2 (hg x)))
        rw [hd0] at h2
        linarith [h2.symm]
      refine ⟨?_, ?_, ?_, ?_⟩
      · intro d hd y hy
        exact mget_append_left _ (hMd d hd y hy)
      · intro ha y hy
        rw [mget_append_right _ hlastM, mget_cons_self, hval ha]
      · intro hc
        exact absurd hc (by simp)
      · intro ha
        rw [hsumP, hval ha]
        ring
    · rw [if_neg hd0]
      rw [List.getLast?_concat]
      simp only []
      rw [hmset]
      have hget : mgetD (M ++ [(last.participant, g x)]) last.participant = g x := by
        rw [mgetD, hPget]
        rfl
      refine ⟨?_, ?_, ?_, ?_⟩
      · intro d hd y hy
        rw [mget_mset_ne _ _ (hdlast d hd)]
        exact mget_append_left _ (hMd d hd y hy)
      · intro ha y hy
        rw [mget_mset_self, hget]
        have h2 : round2 (a - (T + g x)) = a - (T + g x) :=
          round2_eq_self (is2dp_sub ha (is2dp_add hT2 (hg x)))
        rw [h2]
        congr 1
        ring
      · intro hc
        exact absurd hc (by simp)
      · intro ha
        have h3 := sumValues_mset_add (M ++ [(last.participant, g x)])
          last.participant (round2 (a - (T + g x)))
        rw [h3, hsumP]
        have h2 : round2 (a - (T + g x)) = a - (T + g x) :=
          round2_eq_self (is2dp_sub ha (is2dp_add hT2 (hg x)))
        rw [h2]
        ring
  | none =>
    have hpass : detailPass sel g (init ++ [last]) = (M, T) := by
      rw [detailPass_concat, hsel, hinit_eq]
    unfold adjustLast
    rw [hpass]
    simp only []
    by_cases hd0 : round2 (a - T) = 0
    · rw [if_pos hd0]
      refine ⟨?_, ?_, ?_, ?_⟩
      · intro d hd y hy
        exact hMd d hd y hy
      · intro ha y hy
        exact absurd hy (by simp)
      · intro _ hc
        exact absurd hd0 hc
      · intro ha
        have h2 : round2 (a - T) = a - T := round2_eq_self (is2dp_sub ha hT2)
        rw [hd0] at h2
        rw [hsumM]
        linarith [h2.symm]
    · rw [if_neg hd0]
      rw [List.getLast?_concat]
      simp only []
      have hget : mgetD M last.participant = 0 := by
        rw [mgetD, hlastM]
        rfl
      refine ⟨?_, ?_, ?_, ?_⟩
      · intro d hd y hy
        rw [mget_mset_ne _ _ (hdlast d hd)]
        exact hMd d hd y hy
      · intro ha y hy
        exact absurd hy (by simp)
      · intro _ _
        rw [mget_mset_self, hget, zero_add]
      · intro ha
        have h3 := sumValues_mset_add M last.participant (round2 (a - T))
        rw [h3, hsumM]
        have h2 : round2 (a - T) = a - T := round2_eq_self (is2dp_sub ha hT2)
        rw [h2]
        ring

/-- A share list that is everywhere absent or zero has total share count 0. -/
theorem totalSharesOf_eq_zero {l : List SplitDetail}
    (h : ∀ d ∈ l, d.shares = none ∨ d.shares = some 0) : totalSharesOf l = 0 := by
  unfold totalSharesOf
  induction l with
  | nil => rfl
  | cons d l ih =>
    rw [List.foldl_cons]
    have hd : d.shares.getD 0 = 0 := by
      rcases h d (List.mem_cons_self _ _) with h' | h' <;> simp [h']
    rw [hd, add_zero]
    exact ih (fun d' hd' => h d' (List.mem_cons_of_mem _ hd'))

/-! ## Settlement-application algebra (for `validateSettlements`) -/

/-- Net change that applying a settlement list makes to participant `k`'s
expected balance in `validateSettlements` (credit `from`, debit `to`). -/
def netEffect (k : String) (ss : List Settlement) : ℚ :=
  (ss.map (fun s => (if s.from_ = k then s.amount else 0) -
    (if s.to_ = k then s.amount else 0))).sum

theorem mgetD_applySettlement (m : JMap) (s : Settlement) (k : String)
    (hne : s.from_ ≠ s.to_) :
    mgetD (applySettlement m s) k = mgetD m k +
      ((if s.from_ = k then s.amount else 0) - (if s.to_ = k then s.amount else 0)) := by
  unfold applySettlement
  by_cases h1 : s.to_ = k
  · subst h1
    rw [mgetD_mset_self]
    rw [if_neg hne, if_pos rfl]
    ring
  · rw [mgetD_mset_ne _ _ (fun hh => h1 hh.symm)]
    by_cases h2 : s.from_ = k
    · subst h2
      rw [mgetD_mset_self, if_pos rfl, if_neg h1]
      ring
    · rw [mgetD_mset_ne _ _ (fun hh => h2 hh.symm), if_neg h2, if_neg h1]
      ring

theorem mgetD_fold_applySettlement (ss : List Settlement) (m : JMap) (k : String)
    (h : ∀ s ∈ ss, s.from_ ≠ s.to_) :
    mgetD (ss.foldl applySettlement m) k = mgetD m k + netEffect k ss := by
  induction ss generalizing m with
  | nil => simp [netEffect]
  | cons s ss ih =>
    rw [List.foldl_cons, ih _ (fun s' hs' => h s' (List.mem_cons_of_mem _ hs'))]
    rw [mgetD_applySettlement m s k (h s (List.mem_cons_self _ _))]
    unfold netEffect
    rw [List.map_cons, List.sum_cons]
    ring

theorem keys_applySettlement (m : JMap) (s : Settlement)
    (hf : s.from_ ∈ keys m) (ht : s.to_ ∈ keys m) :
    keys (applySettlement m s) = keys m := by
  unfold applySettlement
  rw [keys_mset_of_mem _ (by rwa [keys_mset_of_mem _ hf]), keys_mset_of_mem _ hf]

theorem keys_fold_applySettlement (ss : List Settlement) (m : JMap)
    (h : ∀ s ∈ ss, s.from_ ∈ keys m ∧ s.to_ ∈ keys m) :
    keys (ss.foldl applySettlement m) = keys m := by
  induction ss generalizing m with
  | nil => rfl
  | cons s ss ih =>
    rw [List.foldl_cons]
    have hk := keys_applySettlement m s (h s (List.mem_cons_self _ _)).1
      (h s (List.mem_cons_self _ _)).2
    rw [ih _ (fun s' hs' => by
      rw [hk]
      exact h s' (List.mem_cons_of_mem _ hs')), hk]

/-- Net effect of the single-creditor settlement list on the creditor `P`:
every settlement pays `P`. -/
theorem netEffect_creditor (P : String) (ds : List Entry)
    (hP : P ∉ ds.map (fun d => d.participant)) :
    netEffect P (ds.map (fun d => ⟨d.participant, P, d.amount⟩)) =
      -((ds.map Entry.amount).sum) := by
  induction ds with
  | nil => simp [netEffect]
  | cons d ds ih =>
    rw [List.map_cons] at hP
    have hdP : ¬ d.participant = P := by
      intro hh
      apply hP
      rw [← hh]
      exact List.mem_cons_self _ _
    have hP' : P ∉ ds.map (fun d => d.participant) :=
      fun hh => hP (List.mem_cons_of_mem _ hh)
    unfold netEffect at ih ⊢
    simp only [List.map_cons, List.sum_cons, ih hP']
    simp [hdP]
    ring

/-- Net effect of the single-creditor settlement list on any other
participant: the sum of the amounts of the settlements it sends. -/
theorem netEffect_other (q P : String) (ds : List Entry) (hq : q ≠ P) :
    netEffect q (ds.map (fun d => ⟨d.participant, P, d.amount⟩)) =
      (ds.map (fun d => if d.participant = q then d.amount else 0)).sum := by
  induction ds with
  | nil => simp [netEffect]
  | cons d ds ih =>
    have hPq : ¬ (P = q) := fun hh => hq hh.symm
    unfold netEffect at ih ⊢
    simp only [List.map_cons, List.sum_cons, ih]
    simp [hPq]

/-- With duplicate-free participants, the indicator sum of `netEffect_other`
collapses to the matching entry's amount. -/
theorem sum_if_participant_eq (ds : List Entry) (e : Entry)
    (hnd : (ds.map (fun d => d.participant)).Nodup) (he : e ∈ ds) :
    (ds.map (fun d => if d.participant = e.participant then d.amount else 0)).sum =
      e.amount := by
  induction ds with
  | nil => simp at he
  | cons d ds ih =>
    rw [List.map_cons] at hnd
    obtain ⟨hd1, hd2⟩ := List.nodup_cons.mp hnd
    rw [List.map_cons, List.sum_cons]
    rcases List.mem_cons.mp he with h | h
    · subst h
      rw [if_pos rfl]
      have hz : (ds.map (fun d => if d.participant = e.participant then d.amount
          else 0)).sum = 0 := by
        apply List.sum_eq_zero
        intro x hx
        obtain ⟨d', hd', hdx⟩ := List.mem_map.mp hx
        rw [if_neg (show ¬ d'.participant = e.participant by
          intro hh
          apply hd1
          rw [← hh]
          exact List.mem_map_of_mem _ hd')] at hdx
        exact hdx.symm
      rw [hz]
      ring
    · have hdq : ¬ d.participant = e.participant := by
        intro hh
        apply hd1
        rw [hh]
        exact List.mem_map_of_mem (fun d => d.participant) h
      rw [if_neg hdq, ih hd2 h]
      ring

/-- And on a participant matching no entry it is zero. -/
theorem sum_if_participant_zero (ds : List Entry) (q : String)
    (hq : q ∉ ds.map (fun d => d.participant)) :
    (ds.map (fun d => if d.participant = q then d.amount else 0)).sum = 0 := by
  apply List.sum_eq_zero
  intro x hx
  obtain ⟨d', hd', hdx⟩ := List.mem_map.mp hx
  rw [if_neg (show ¬ d'.participant = q by
    intro hh
    apply hq
    rw [← hh]
    exact List.mem_map_of_mem _ hd')] at hdx
  exact hdx.symm

/-- The greedy loop against a single creditor holding exactly the debtors'
total: each debtor is matched in turn for its full (already 2-decimal)
amount. -/
theorem settleLoop_single_creditor (P : String) (ds : List Entry)
    (h : ∀ d ∈ ds, 2/100 ≤ d.amount ∧ is2dp d.amount) :
    settleLoop [⟨P, (ds.map Entry.amount).sum⟩] ds =
      ds.map (fun d => ⟨d.participant, P, d.amount⟩) := by
  induction ds with
  | nil => simp [settleLoop]
  | cons d ds ih =>
    have hd := h d (List.mem_cons_self _ _)
    have hrest : ∀ d' ∈ ds, 2/100 ≤ d'.amount ∧ is2dp d'.amount :=
      fun d' hd' => h d' (List.mem_cons_of_mem _ hd')
    have hS : 0 ≤ (ds.map Entry.amount).sum := by
      apply List.sum_nonneg
      intro x hx
      obtain ⟨d', hd', hdx⟩ := List.mem_map.mp hx
      have := (hrest d' hd').1
      rw [← hdx] at *
      linarith
    rw [List.map_cons, List.sum_cons]
    rw [settleLoop]
    rw [if_neg (show ¬ (⟨P, d.amount + (ds.map Entry.amount).sum⟩ : Entry).amount ≤ 1/100
      from by simp only []; push_neg; linarith [hd.1])]
    rw [if_neg (show ¬ d.amount ≤ 1/100 from by push_neg; linarith [hd.1])]
    dsimp only
    rw [min_eq_right (show d.amount ≤ d.amount + (ds.map Entry.amount).sum by linarith)]
    rw [show d.amount + (ds.map Entry.amount).sum - d.amount =
      (ds.map Entry.amount).sum from by ring]
    rw [show d.amount - d.amount = 0 from by ring]
    have hr2 : round2 d.amount = d.amount := round2_eq_self hd.2
    rw [hr2]
    cases ds with
    | nil =>
      rw [if_pos (show (List.map Entry.amount [] : List ℚ).sum ≤ 1/100 from by simp)]
      rw [if_pos (show (0:ℚ) ≤ 1/100 from by norm_num)]
      simp [settleLoop]
    | cons d2 ds2 =>
      have hS2 : 2/100 ≤ ((d2 :: ds2).map Entry.amount).sum := by
        rw [List.map_cons, List.sum_cons]
        have h1 := (hrest d2 (List.mem_cons_self _ _)).1
        have h2 : 0 ≤ (ds2.map Entry.amount).sum := by
          apply List.sum_nonneg
          intro x hx
          obtain ⟨d', hd', hdx⟩ := List.mem_map.mp hx
          have := (hrest d' (List.mem_cons_of_mem _ hd')).1
          rw [← hdx] at *
          linarith
        linarith
      rw [if_neg (show ¬ ((d2 :: ds2).map Entry.amount).sum ≤ 1/100 from by
        push_neg; linarith)]
      rw [if_pos (show (0:ℚ) ≤ 1/100 from by norm_num)]
      rw [ih hrest]
      simp

theorem keys_map_pairs (bs : List Balance) :
    keys (bs.map (fun b => (b.participant, b.amount))) =
      bs.map (fun b => b.participant) := by
  rw [keys, List.map_map]
  rfl

theorem creditorsOf_map_pairs (bs : List Balance) :
    creditorsOf (bs.map (fun b => (b.participant, b.amount))) =
      (bs.filter (fun b => decide (1/100 < b.amount))).map
        (fun b => ⟨b.participant, b.amount⟩) := by
  unfold creditorsOf
  rw [List.filter_map, List.map_map]
  rfl

theorem debtorsOf_map_pairs (bs : List Balance) :
    debtorsOf (bs.map (fun b => (b.participant, b.amount))) =
      (bs.filter (fun b => decide (b.amount < -(1/100)))).map
        (fun b => ⟨b.participant, |b.amount|⟩) := by
  unfold debtorsOf
  rw [List.filter_map, List.map_map]
  rfl

/-- Splitting a balance sum by sign (exact zeros contribute nothing). -/
theorem sum_split_sign (bs : List Balance) :
    (bs.map (fun b => b.amount)).sum =
      ((bs.filter (fun b => decide (0 < b.amount))).map (fun b => b.amount)).sum +
      ((bs.filter (fun b => decide (b.amount < 0))).map (fun b => b.amount)).sum := by
  induction bs with
  | nil => simp
  | cons b bs ih =>
    rw [List.map_cons, List.sum_cons, ih, List.filter_cons, List.filter_cons]
    rcases lt_trichotomy b.amount 0 with h | h | h
    · rw [if_neg (by simp; linarith), if_pos (by simpa using h)]
      rw [List.map_cons, List.sum_cons]
      ring
    · rw [if_neg (by simp [h]), if_neg (by simp [h]), h]
      ring
    · rw [if_pos (by simpa using h), if_neg (by simp; linarith)]
      rw [List.map_cons, List.sum_cons]
      ring

theorem sum_map_neg_balance (l : List Balance) :
    (l.map (fun b => -b.amount)).sum = -((l.map (fun b => b.amount)).sum) := by
  induction l with
  | nil => simp
  | cons b l ih =>
    simp only [List.map_cons, List.sum_cons, ih]
    ring

/-! ## Conservation infrastructure -/

theorem sumValues_mset_sub (m : JMap) (k : String) (a : ℚ) :
    sumValues (mset m k (mgetD m k - a)) = sumValues m - a := by
  rw [sub_eq_add_neg, sumValues_mset_add, ← sub_eq_add_neg]

/-- Debiting every split share from the running balance map lowers its value
sum by the split total. -/
theorem sumValues_debit_fold (l : JMap) : ∀ m : JMap,
    sumValues (l.foldl (fun m e => mset m e.1 (mgetD m e.1 - e.2)) m) =
      sumValues m - sumValues l := by
  induction l with
  | nil => intro m; simp [sumValues]
  | cons e l ih =>
    intro m
    rw [List.foldl_cons, ih, sumValues_mset_sub, sumValues_cons]
    ring

theorem sumValues_processTransaction (m : JMap) (t : Transaction) :
    sumValues (processTransaction m t) =
      sumValues m + (t.amount - sumValues (calculateSplitAmounts t)) := by
  unfold processTransaction
  rw [sumValues_debit_fold, sumValues_mset_add]
  ring

theorem sumValues_balance_fold (txs : List Transaction) : ∀ m0 : JMap,
    sumValues (txs.foldl processTransaction m0) =
      sumValues m0 +
        (txs.map (fun t => t.amount - sumValues (calculateSplitAmounts t))).sum := by
  induction txs with
  | nil => intro m0; simp
  | cons t txs ih =>
    intro m0
    rw [List.foldl_cons, ih, sumValues_processTransaction, List.map_cons,
      List.sum_cons]
    ring

/-- An equal split over a non-empty duplicate-free participant list misses the
transaction amount by at most half a cent (the rounding of the remainder). -/
theorem equalSplit_close (t : Transaction) (hty : t.splitType = SplitType.equal)
    (hne : t.participants ≠ []) (hnd : t.participants.Nodup) :
    |t.amount - sumValues (calculateSplitAmounts t)| ≤ 1/200 := by
  obtain ⟨p, ps, hps⟩ := List.exists_cons_of_ne_nil hne
  have hs : calculateSplitAmounts t = calculateEqualSplit t.amount (p :: ps) := by
    unfold calculateSplitAmounts
    rw [hty, hps]
  rw [hs, calculateEqualSplit_cons t.amount p ps (hps ▸ hnd)]
  set n : ℚ := ((p :: ps).length : ℚ) with hn
  set base := floor2 (t.amount / n) with hbase
  rw [sumValues_cons, sumValues_eq, List.map_map]
  rw [show (Prod.snd ∘ fun q : String => (q, base)) = fun _ => base from rfl]
  rw [sum_map_const]
  have hlen : (ps.length : ℚ) = n - 1 := by
    rw [hn, List.length_cons]
    push_cast
    ring
  rw [hlen]
  have harith : t.amount - (base + round2 (t.amount - base * n) + (n - 1) * base) =
      (t.amount - base * n) - round2 (t.amount - base * n) := by
    ring
  rw [harith, abs_sub_comm]
  exact abs_round2_sub_le (t.amount - base * n)

/-- Every owed amount computed by an equal split is a whole number of cents. -/
theorem equalSplit_2dp (t : Transaction) (hty : t.splitType = SplitType.equal) :
    ∀ e ∈ calculateSplitAmounts t, is2dp e.2 := by
  intro e he
  have hs : calculateSplitAmounts t =
      calculateEqualSplit t.amount t.participants := by
    unfold calculateSplitAmounts
    rw [hty]
  rw [hs] at he
  unfold calculateEqualSplit at he
  have hgen : ∀ (l : List (ℕ × String)) (m0 : JMap), (∀ e ∈ m0, is2dp e.2) →
      e ∈ l.foldl (fun result ip => mset result ip.2
        (round2 (if ip.1 = 0 then floor2 (t.amount / (t.participants.length : ℚ)) +
          round2 (t.amount - floor2 (t.amount / (t.participants.length : ℚ)) *
            (t.participants.length : ℚ))
          else floor2 (t.amount / (t.participants.length : ℚ))))) m0 →
      is2dp e.2 := by
    intro l
    induction l with
    | nil => intro m0 hm0 hmem; exact hm0 e hmem
    | cons ip l ih =>
      intro m0 hm0 hmem
      rw [List.foldl_cons] at hmem
      refine ih _ ?_ hmem
      intro e' he'
      rcases mem_mset he' with h | h
      · exact hm0 e' h
      · rw [h]
        exact is2dp_round2 _
  exact hgen _ [] (by simp) he

/-- The all-participants initial map holds only zero values. -/
theorem initMap_entry_zero (ps : List String) :
    ∀ e ∈ ps.foldl (fun m p => mset m p 0) [], e.2 = 0 := by
  have hgen : ∀ (l : List String) (m0 : JMap), (∀ e ∈ m0, e.2 = 0) →
      ∀ e ∈ l.foldl (fun m p => mset m p 0) m0, e.2 = 0 := by
    intro l
    induction l with
    | nil => intro m0 hm0 e hmem; exact hm0 e hmem
    | cons p l ih =>
      intro m0 hm0 e hmem
      rw [List.foldl_cons] at hmem
      refine ih _ ?_ e hmem
      intro e' he'
      rcases mem_mset he' with h | h
      · exact hm0 e' h
      · rw [h]
  exact hgen ps [] (by simp)

theorem initMap_sum_zero (ps : List String) :
    sumValues (ps.foldl (fun m p => mset m p 0) []) = 0 := by
  rw [sumValues_eq]
  apply List.sum_eq_zero
  intro x hx
  obtain ⟨e, he, hex⟩ := List.mem_map.mp hx
  rw [← hex]
  exact initMap_entry_zero ps e he

theorem initMap_keys_nodup (ps : List String) :
    (keys (ps.foldl (fun m p => mset m p 0) [])).Nodup := by
  have hgen : ∀ (l : List String) (m0 : JMap), (keys m0).Nodup →
      (keys (l.foldl (fun m p => mset m p 0) m0)).Nodup := by
    intro l
    induction l with
    | nil => intro m0 h; exact h
    | cons p l ih =>
      intro m0 h
      rw [List.foldl_cons]
      exact ih _ (keys_nodup_mset p 0 h)
  exact hgen ps [] (by simp [keys])

theorem debit_fold_keys_nodup (l : JMap) : ∀ m : JMap, (keys m).Nodup →
    (keys (l.foldl (fun m e => mset m e.1 (mgetD m e.1 - e.2)) m)).Nodup := by
  induction l with
  | nil => intro m h; exact h
  | cons e l ih =>
    intro m h
    rw [List.foldl_cons]
    exact ih _ (keys_nodup_mset _ _ h)

theorem processTransaction_keys_nodup (m : JMap) (t : Transaction)
    (h : (keys m).Nodup) : (keys (processTransaction m t)).Nodup := by
  unfold processTransaction
  exact debit_fold_keys_nodup _ _ (keys_nodup_mset _ _ h)

theorem balance_fold_keys_nodup (txs : List Transaction) : ∀ m0 : JMap,
    (keys m0).Nodup → (keys (txs.foldl processTransaction m0)).Nodup := by
  induction txs with
  | nil => intro m0 h; exact h
  | cons t txs ih =>
    intro m0 h
    rw [List.foldl_cons]
    exact ih _ (processTransaction_keys_nodup _ _ h)

/-- Whole-cent invariant: every entry of the running balance map is a whole
number of cents unless its key is a payer in `P`. -/
def centInv (P : List String) (m : JMap) : Prop :=
  ∀ e ∈ m, is2dp e.2 ∨ e.1 ∈ P

theorem centInv_mset_2dp {P : List String} {m : JMap} (h : centInv P m)
    (k : String) {v : ℚ} (hv : is2dp v) : centInv P (mset m k v) := by
  intro e he
  rcases mem_mset he with h1 | h1
  · exact h e h1
  · left
    rw [h1]
    exact hv

theorem centInv_mgetD {P : List String} {m : JMap} (h : centInv P m)
    {k : String} (hk : k ∉ P) : is2dp (mgetD m k) := by
  unfold mgetD
  cases hm : mget m k with
  | none => simpa using is2dp_zero
  | some v =>
    have := h (k, v) (mem_of_mget_eq_some hm)
    simp only [Option.getD_some]
    rcases this with h1 | h1
    · exact h1
    · exact absurd h1 hk

theorem centInv_debit_fold {P : List String} (l : JMap)
    (hl : ∀ e ∈ l, is2dp e.2) : ∀ m : JMap, centInv P m →
    centInv P (l.foldl (fun m e => mset m e.1 (mgetD m e.1 - e.2)) m) := by
  induction l with
  | nil => intro m h; exact h
  | cons e l ih =>
    intro m h
    rw [List.foldl_cons]
    refine ih (fun e' he' => hl e' (List.mem_cons_of_mem _ he')) _ ?_
    intro e' he'
    rcases mem_mset he' with h1 | h1
    · exact h e' h1
    · by_cases hk : e.1 ∈ P
      · right
        rw [h1]
        exact hk
      · left
        rw [h1]
        exact is2dp_sub (centInv_mgetD h hk) (hl e (List.mem_cons_self _ _))

theorem centInv_processTransaction {P : List String} (m : JMap) (t : Transaction)
    (hP : t.paidBy ∈ P) (hsp : ∀ e ∈ calculateSplitAmounts t, is2dp e.2)
    (h : centInv P m) : centInv P (processTransaction m t) := by
  unfold processTransaction
  refine centInv_debit_fold _ hsp _ ?_
  intro e he
  rcases mem_mset he with h1 | h1
  · exact h e h1
  · right
    rw [h1]
    exact hP

theorem centInv_balance_fold {P : List String} (txs : List Transaction)
    (hall : ∀ t ∈ txs, t.paidBy ∈ P ∧ ∀ e ∈ calculateSplitAmounts t, is2dp e.2) :
    ∀ m0 : JMap, centInv P m0 → centInv P (txs.foldl processTransaction m0) := by
  induction txs with
  | nil => intro m0 h; exact h
  | cons t txs ih =>
    intro m0 h
    rw [List.foldl_cons]
    refine ih (fun t' ht' => hall t' (List.mem_cons_of_mem _ ht')) _ ?_
    exact centInv_processTransaction m0 t (hall t (List.mem_cons_self _ _)).1
      (hall t (List.mem_cons_self _ _)).2 h

/-- The total final-rounding error is at most half a cent per map entry whose
key lies in `P` (entries outside `P` are already whole cents). -/
theorem err_sum_le (P : List String) (m : JMap) (hinv : centInv P m) :
    |(m.map (fun e => round2 e.2 - e.2)).sum| ≤
      (1/200) * (m.countP (fun e => decide (e.1 ∈ P)) : ℚ) := by
  induction m with
  | nil => simp
  | cons e m ih =>
    have hrest := ih (fun e' he' => hinv e' (List.mem_cons_of_mem _ he'))
    rw [List.map_cons, List.sum_cons, List.countP_cons]
    refine le_trans (abs_add _ _) ?_
    by_cases hk : e.1 ∈ P
    · have h1 : |round2 e.2 - e.2| ≤ 1/200 := abs_round2_sub_le e.2
      have h2 : (decide (e.1 ∈ P)) = true := by simpa using hk
      rw [h2]
      rw [if_pos rfl]
      push_cast
      linarith
    · have h0 : round2 e.2 - e.2 = 0 := by
        rcases hinv e (List.mem_cons_self _ _) with h1 | h1
        · rw [round2_eq_self h1]
          ring
        · exact absurd h1 hk
      have h2 : (decide (e.1 ∈ P)) = false := by simpa using hk
      rw [h0, h2]
      simpa using hrest

/-- With duplicate-free keys, at most `P.length` map entries have a key in
`P`. -/
theorem countP_key_mem_le (m : JMap) (hnd : (keys m).Nodup) (P : List String) :
    m.countP (fun e => decide (e.1 ∈ P)) ≤ P.length := by
  have h1 : m.countP (fun e => decide (e.1 ∈ P)) =
      ((keys m).filter (fun k => decide (k ∈ P))).length := by
    rw [keys, ← List.countP_eq_length_filter, List.countP_map]
    rfl
  rw [h1]
  have h2 : ((keys m).filter (fun k => decide (k ∈ P))).Nodup :=
    List.Nodup.filter _ hnd
  have h3 : ((keys m).filter (fun k => decide (k ∈ P))) ⊆ P := by
    intro k hk
    have := List.of_mem_filter hk
    simpa using this
  exact (List.subperm_of_subset h2 h3).length_le

/-- Decomposing the rounded value sum into the raw sum plus the rounding
errors. -/
theorem sum_round2_decomp (m : JMap) :
    (m.map (fun e => round2 e.2)).sum =
      (m.map Prod.snd).sum + (m.map (fun e => round2 e.2 - e.2)).sum := by
  induction m with
  | nil => simp
  | cons e m ih =>
    simp only [List.map_cons, List.sum_cons, ih]
    ring

theorem abs_list_sum_le (l : List ℚ) : |l.sum| ≤ (l.map (fun x => |x|)).sum := by
  induction l with
  | nil => simp
  | cons x l ih =>
    rw [List.sum_cons, List.map_cons, List.sum_cons]
    exact le_trans (abs_add _ _) (by linarith)

/-- Core conservation bound: starting from an all-zero running map with
duplicate-free keys, folding any list of equal-split transactions (non-empty,
duplicate-free participants) and rounding the final values leaves a total of
magnitude at most one cent per transaction. -/
theorem balances_core (txs : List Transaction) (m0 : JMap)
    (h : ∀ t ∈ txs, t.splitType = SplitType.equal ∧ t.participants ≠ [] ∧
      t.participants.Nodup)
    (h0sum : sumValues m0 = 0) (h0nd : (keys m0).Nodup)
    (h0z : ∀ e ∈ m0, e.2 = 0) :
    |((txs.foldl processTransaction m0).map (fun e => snapBalance e.2)).sum| ≤
      (1/100) * (txs.length : ℚ) := by
  set P := txs.map (fun t => t.paidBy) with hP
  have hraw : |sumValues (txs.foldl processTransaction m0)| ≤
      (1/200) * (txs.length : ℚ) := by
    rw [sumValues_balance_fold, h0sum, zero_add]
    refine le_trans (abs_list_sum_le _) ?_
    have hbound : ∀ x ∈ ((txs.map (fun t =>
        t.amount - sumValues (calculateSplitAmounts t))).map (fun x => |x|)),
        x ≤ 1/200 := by
      intro x hx
      obtain ⟨y, hy, hyx⟩ := List.mem_map.mp hx
      obtain ⟨t, ht, hty⟩ := List.mem_map.mp hy
      obtain ⟨h1, h2, h3⟩ := h t ht
      rw [← hyx, ← hty]
      exact equalSplit_close t h1 h2 h3
    refine le_trans (List.sum_le_card_nsmul _ _ hbound) ?_
    rw [List.length_map, List.length_map, nsmul_eq_mul]
    ring_nf
    exact le_refl _
  have hinv : centInv P (txs.foldl processTransaction m0) := by
    refine centInv_balance_fold txs ?_ m0 ?_
    · intro t ht
      exact ⟨List.mem_map_of_mem _ ht, equalSplit_2dp t (h t ht).1⟩
    · intro e he
      left
      rw [h0z e he]
      exact is2dp_zero
  have hnd : (keys (txs.foldl processTransaction m0)).Nodup :=
    balance_fold_keys_nodup txs m0 h0nd
  have herr : |((txs.foldl processTransaction m0).map
      (fun e => round2 e.2 - e.2)).sum| ≤ (1/200) * (txs.length : ℚ) := by
    refine le_trans (err_sum_le P _ hinv) ?_
    have hle := countP_key_mem_le _ hnd P
    have hPlen : P.length = txs.length := List.length_map _ _
    rw [hPlen] at hle
    have : ((txs.foldl processTransaction m0).countP
        (fun e => decide (e.1 ∈ P)) : ℚ) ≤ (txs.length : ℚ) := by
      exact_mod_cast hle
    nlinarith
  have hsnap : ((txs.foldl processTransaction m0).map (fun e => snapBalance e.2)) =
      ((txs.foldl processTransaction m0).map (fun e => round2 e.2)) :=
    List.map_congr_left (fun e _ => snapBalance_eq_round2 e.2)
  rw [hsnap, sum_round2_decomp]
  rw [sumValues_eq] at hraw
  calc |((txs.foldl processTransaction m0).map Prod.snd).sum +
        ((txs.foldl processTransaction m0).map (fun e => round2 e.2 - e.2)).sum| ≤
      |((txs.foldl processTransaction m0).map Prod.snd).sum| +
        |((txs.foldl processTransaction m0).map (fun e => round2 e.2 - e.2)).sum| :=
        abs_add _ _
    _ ≤ (1/200) * (txs.length : ℚ) + (1/200) * (txs.length : ℚ) := by linarith
    _ = (1/100) * (txs.length : ℚ) := by ring

/-! ## Claims -/

/-- C4.  For every Balance list, the number of Settlements returned by
`calculateOptimizedSettlements` is at most `max(0, n - 1)`, where `n` is the
number of balances whose magnitude exceeds the zero-tolerance `0.01` (the
non-zero balances entering the creditor/debtor partition). -/
theorem claim_C4_minimality_bound (balances : List Balance) :
    ((calculateOptimizedSettlements balances).length : ℤ) ≤
      max 0 ((balances.countP (fun b => decide (1/100 < |b.amount|)) : ℤ) - 1) := by
  have h1 : (calculateOptimizedSettlements balances).length ≤
      balances.countP (fun b => decide (1/100 < |b.amount|)) - 1 := by
    unfold calculateOptimizedSettlements
    refine le_trans (settleLoop_length _ _) ?_
    rw [sortByDesc_length, sortByDesc_length, creditors_debtors_length]
    have h2 := countV_balanceMapOf_le balances (fun v => decide (1/100 < |v|))
    unfold countV at h2
    simp only [] at h2
    omega
  omega

/-- An equal-split transaction of a sub-cent amount: the remainder rule rounds
`1/128` up to one cent, so the split sum is `0.01 ≠ 1/128`. -/
def txC3 : Transaction := ⟨"A", 1/128, ["A"], SplitType.equal, []⟩

/-- Counterexample to C3 as stated: an equal split with a non-empty (and even
duplicate-free) participant list whose per-participant amounts do not sum to
the transaction amount, because the amount is not a whole number of cents. -/
theorem claim_C3_counterexample :
    txC3.splitType = SplitType.equal ∧ txC3.participants ≠ [] ∧
      sumValues (calculateSplitAmounts txC3) ≠ txC3.amount := by
  refine ⟨rfl, by decide, ?_⟩
  have h1 : (⌊(25 : ℚ)/32⌋ : ℤ) = 0 := by
    rw [Int.floor_eq_iff]; norm_num
  have h2 : (⌊(41 : ℚ)/32⌋ : ℤ) = 1 := by
    rw [Int.floor_eq_iff]; norm_num
  norm_num +decide [txC3, calculateSplitAmounts, calculateEqualSplit, floor2,
    round2, jround, sumValues, mset, mget, mgetD, List.enum, List.enumFrom,
    h1, h2]

/-- C3 (amended).  For an equal split whose participant list is non-empty and
duplicate-free and whose amount is a whole number of cents, the first
participant owes the floored base share plus the whole rounded remainder,
every other participant owes the base share, and the owed amounts sum exactly
to the transaction amount. -/
theorem claim_C3_amended_equal_split_exact (t : Transaction) (p : String)
    (ps : List String) (hty : t.splitType = SplitType.equal)
    (hps : t.participants = p :: ps) (hnd : (p :: ps).Nodup)
    (h2 : is2dp t.amount) :
    sumValues (calculateSplitAmounts t) = t.amount ∧
    mget (calculateSplitAmounts t) p =
      some (floor2 (t.amount / ((p :: ps).length : ℚ)) +
        round2 (t.amount -
          floor2 (t.amount / ((p :: ps).length : ℚ)) * ((p :: ps).length : ℚ))) ∧
    (∀ q ∈ ps, mget (calculateSplitAmounts t) q =
      some (floor2 (t.amount / ((p :: ps).length : ℚ)))) := by
  have hs : calculateSplitAmounts t = calculateEqualSplit t.amount (p :: ps) := by
    unfold calculateSplitAmounts
    rw [hty, hps]
  rw [hs, calculateEqualSplit_cons t.amount p ps hnd]
  set n : ℚ := ((p :: ps).length : ℚ) with hn
  set base := floor2 (t.amount / n) with hbase
  set rem := round2 (t.amount - base * n) with hrem
  refine ⟨?_, mget_cons_self, ?_⟩
  · rw [sumValues_cons, sumValues_eq, List.map_map]
    rw [show (Prod.snd ∘ fun q : String => (q, base)) = fun _ => base from rfl]
    rw [sum_map_const]
    have hbn : is2dp (base * n) := by
      rw [hn]
      exact is2dp_mul_natCast (is2dp_floor2 _) (p :: ps).length
    have hr : rem = t.amount - base * n := by
      rw [hrem]
      exact round2_eq_self (is2dp_sub h2 hbn)
    have hlen : n = (ps.length : ℚ) + 1 := by
      rw [hn, List.length_cons]
      push_cast
      ring
    rw [hr, hlen]
    ring
  · intro q hq
    have hqp : (p, base + rem).1 ≠ q := by
      intro hh
      have hpq : p = q := hh
      exact (List.nodup_cons.mp hnd).1 (hpq.symm ▸ hq)
    rw [mget_cons_ne hqp]
    exact mget_map_self (List.nodup_cons.mp hnd).2 hq

/-- Witness for the amended C3: Alice, Bob and Charlie split 100 equally; the
computed owed amounts sum to exactly 100. -/
theorem claim_C3_amended_witness :
    sumValues (calculateSplitAmounts
      ⟨"Alice", 100, ["Alice", "Bob", "Charlie"], SplitType.equal, []⟩) = 100 :=
  (claim_C3_amended_equal_split_exact _ "Alice" ["Bob", "Charlie"] rfl rfl
    (by decide) (by rw [is2dp_iff]; exact ⟨10000, by norm_num⟩)).1

/-- Every entry of the optimizer's balance-map copy carries the participant
and amount of some element of the input balance list. -/
theorem mem_balanceMapOf {balances : List Balance} {e : String × ℚ}
    (he : e ∈ balanceMapOf balances) :
    ∃ b ∈ balances, b.participant = e.1 ∧ b.amount = e.2 := by
  have h : ∀ (bs : List Balance) (m0 : JMap),
      e ∈ bs.foldl (fun m b => mset m b.participant b.amount) m0 →
      e ∈ m0 ∨ ∃ b ∈ bs, b.participant = e.1 ∧ b.amount = e.2 := by
    intro bs
    induction bs with
    | nil => intro m0 h0; exact Or.inl h0
    | cons b bs ih =>
      intro m0 h0
      rw [List.foldl_cons] at h0
      rcases ih _ h0 with h1 | h1
      · rcases mem_mset h1 with h2 | h2
        · exact Or.inl h2
        · refine Or.inr ⟨b, List.mem_cons_self _ _, ?_, ?_⟩ <;> rw [h2]
      · obtain ⟨b', hb', hb1, hb2⟩ := h1
        exact Or.inr ⟨b', List.mem_cons_of_mem _ hb', hb1, hb2⟩
  rcases h balances [] he with h0 | h0
  · simp at h0
  · exact h0

/-- A sub-tolerance balance of `11/1000 = 0.011` is matched by the greedy loop
(the unrounded transfer `0.011` exceeds `0.01`), but the stored settlement
amount is the rounded value `0.01`, which does not exceed `0.01`. -/
def balC9 : List Balance := [⟨"A", 11/1000⟩, ⟨"B", -(11/1000)⟩]

/-- Counterexample to C9 as stated: the emitted settlement's amount is exactly
`0.01`, not strictly greater than `0.01`. -/
theorem claim_C9_counterexample :
    calculateOptimizedSettlements balC9 = [⟨"B", "A", 1/100⟩] ∧
      ¬ (1/100 < (1/100 : ℚ)) := by
  constructor
  · have hr : round2 (11/1000 : ℚ) = 1/100 := by
      rw [round2, jround]
      rw [show ((11:ℚ)/1000 * 100 + 1/2) = 8/5 by ring]
      rw [show (⌊(8:ℚ)/5⌋ : ℤ) = 1 from by rw [Int.floor_eq_iff]; norm_num]
      norm_num
    norm_num +decide [balC9, calculateOptimizedSettlements, balanceMapOf,
      creditorsOf, debtorsOf, settleLoop, mset, mget, mgetD, keys, sortByDesc,
      insertByDesc, hr, abs_of_pos, abs_of_neg]
  · norm_num

/-- C9 (amended).  A participant all of whose balance entries have magnitude
at most `0.01` enters neither the creditor nor the debtor partition and is
referenced by no emitted settlement; and every emitted settlement's amount is
at least `0.01` (it is the 2-decimal rounding of an unrounded transfer that
strictly exceeds `0.01`, so after rounding only `≥ 0.01` survives). -/
theorem claim_C9_amended_exclusion (balances : List Balance) (p : String)
    (hp : ∀ b ∈ balances, b.participant = p → |b.amount| ≤ 1/100) :
    p ∉ (creditorsOf (balanceMapOf balances)).map (fun e => e.participant) ∧
    p ∉ (debtorsOf (balanceMapOf balances)).map (fun e => e.participant) ∧
    ∀ s ∈ calculateOptimizedSettlements balances,
      s.from_ ≠ p ∧ s.to_ ≠ p ∧ 1/100 ≤ s.amount := by
  have hsmall : ∀ e ∈ balanceMapOf balances, e.1 = p → |e.2| ≤ 1/100 := by
    intro e he hep
    obtain ⟨b, hb, hb1, hb2⟩ := mem_balanceMapOf he
    rw [← hb2]
    exact hp b hb (hb1.trans hep)
  have hc : p ∉ (creditorsOf (balanceMapOf balances)).map (fun e => e.participant) := by
    intro hmem
    obtain ⟨en, hen, henp⟩ := List.mem_map.mp hmem
    unfold creditorsOf at hen
    obtain ⟨e, he, hee⟩ := List.mem_map.mp hen
    have he2 := List.of_mem_filter he
    simp only [decide_eq_true_eq] at he2
    have : |e.2| ≤ 1/100 := by
      apply hsmall e (List.mem_of_mem_filter he)
      rw [← henp, ← hee]
    have h3 := le_abs_self e.2
    linarith
  have hd : p ∉ (debtorsOf (balanceMapOf balances)).map (fun e => e.participant) := by
    intro hmem
    obtain ⟨en, hen, henp⟩ := List.mem_map.mp hmem
    unfold debtorsOf at hen
    obtain ⟨e, he, hee⟩ := List.mem_map.mp hen
    have he2 := List.of_mem_filter he
    simp only [decide_eq_true_eq] at he2
    have : |e.2| ≤ 1/100 := by
      apply hsmall e (List.mem_of_mem_filter he)
      rw [← henp, ← hee]
    have h3 := neg_abs_le e.2
    linarith
  refine ⟨hc, hd, ?_⟩
  intro s hs
  unfold calculateOptimizedSettlements at hs
  obtain ⟨hf, ht, ha⟩ := settleLoop_mem _ _ s hs
  have hfd : s.from_ ∈ (debtorsOf (balanceMapOf balances)).map (fun e => e.participant) := by
    have := ((sortByDesc_perm Entry.amount (debtorsOf (balanceMapOf balances))).map
      (fun e => e.participant)).mem_iff.mp hf
    exact this
  have htc : s.to_ ∈ (creditorsOf (balanceMapOf balances)).map (fun e => e.participant) := by
    have := ((sortByDesc_perm Entry.amount (creditorsOf (balanceMapOf balances))).map
      (fun e => e.participant)).mem_iff.mp ht
    exact this
  exact ⟨fun hh => hd (hh ▸ hfd), fun hh => hc (hh ▸ htc), ha⟩

/-- Witness for the amended C9: with a sub-cent balance of `1/200 = 0.005` for
participant `A`, the partitions exclude `A`. -/
theorem claim_C9_amended_witness :
    "A" ∉ (creditorsOf (balanceMapOf [⟨"A", 1/200⟩, ⟨"B", 5⟩, ⟨"C", -5⟩])).map
        (fun e => e.participant) ∧
    "A" ∉ (debtorsOf (balanceMapOf [⟨"A", 1/200⟩, ⟨"B", 5⟩, ⟨"C", -5⟩])).map
        (fun e => e.participant) := by
  have h := claim_C9_amended_exclusion [⟨"A", 1/200⟩, ⟨"B", 5⟩, ⟨"C", -5⟩] "A" ?hp
  · exact ⟨h.1, h.2.1⟩
  case hp =>
    intro b hb hbp
    fin_cases hb
    · rw [show |(1/200 : ℚ)| = 1/200 from abs_of_pos (by norm_num)]
      norm_num
    · exact absurd hbp (by decide)
    · exact absurd hbp (by decide)

/-- A percentage split of a sub-cent amount: both computed shares round to 0
and the last participant absorbs a rounded difference of one cent, so the
values sum to `0.01 ≠ 1/128`. -/
def txC5 : Transaction :=
  ⟨"P", 1/128, [], SplitType.percentage,
    [⟨"A", none, some 50, none⟩, ⟨"B", none, some 50, none⟩]⟩

/-- Counterexample to C5 as stated: for a percentage split whose amount is not
a whole number of cents, the mapping's values do not sum to the transaction
amount (the final rounded difference cannot restore a sub-cent amount). -/
theorem claim_C5_counterexample :
    txC5.splitType = SplitType.percentage ∧ txC5.splitDetails ≠ [] ∧
      sumValues (calculateSplitAmounts txC5) ≠ txC5.amount := by
  refine ⟨rfl, by decide, ?_⟩
  have h1 : (⌊(57 : ℚ)/64⌋ : ℤ) = 0 := by
    rw [Int.floor_eq_iff]; norm_num
  have h2 : (⌊(41 : ℚ)/32⌋ : ℤ) = 1 := by
    rw [Int.floor_eq_iff]; norm_num
  norm_num +decide [txC5, calculateSplitAmounts, calculatePercentageSplit,
    detailPass, adjustLast, round2, jround, sumValues, mset, mget, mgetD,
    List.getLast?, h1, h2]

/-- C5 (amended).  For a percentage split over a detail list `init ++ [last]`
with pairwise distinct participants and an amount that is a whole number of
cents: every `init` entry with a defined percentage is assigned
`round2(amount * percentage / 100)`; when the last entry's percentage is
defined, its participant is assigned exactly the amount minus the sum of the
`init` entries' computed amounts (absorbing all rounding drift); and the
mapping's values always sum to the transaction amount. -/
theorem claim_C5_amended_percentage_split (t : Transaction)
    (init : List SplitDetail) (last : SplitDetail)
    (hty : t.splitType = SplitType.percentage)
    (hdet : t.splitDetails = init ++ [last])
    (hnd : ((init ++ [last]).map (fun d => d.participant)).Nodup)
    (h2 : is2dp t.amount) :
    (∀ d ∈ init, ∀ pc, d.percentage = some pc →
      mget (calculateSplitAmounts t) d.participant =
        some (round2 (t.amount * pc / 100))) ∧
    (∀ pc, last.percentage = some pc →
      mget (calculateSplitAmounts t) last.participant =
        some (t.amount -
          (init.filterMap (fun d => d.percentage.map
            (fun pc => round2 (t.amount * pc / 100)))).sum)) ∧
    sumValues (calculateSplitAmounts t) = t.amount := by
  have hs : calculateSplitAmounts t =
      adjustLast t.amount (init ++ [last])
        (detailPass (fun d => d.percentage)
          (fun pc => round2 (t.amount * pc / 100)) (init ++ [last])) := by
    unfold calculateSplitAmounts
    rw [hty, hdet]
    rfl
  have h := adjustLast_detailPass_spec (fun d => d.percentage)
    (fun pc => round2 (t.amount * pc / 100)) t.amount init last hnd
    (fun y => is2dp_round2 _)
  rw [hs]
  exact ⟨fun d hd pc hpc => h.1 d hd pc hpc,
    fun pc hpc => h.2.1 h2 pc hpc, h.2.2.2 h2⟩

/-- Witness for the amended C5: a 40%/60% split of 100 sums to exactly 100. -/
theorem claim_C5_amended_witness :
    sumValues (calculateSplitAmounts
      ⟨"P", 100, [], SplitType.percentage,
        [⟨"A", none, some 40, none⟩, ⟨"B", none, some 60, none⟩]⟩) = 100 :=
  (claim_C5_amended_percentage_split _ [⟨"A", none, some 40, none⟩]
    ⟨"B", none, some 60, none⟩ rfl rfl (by decide)
    (is2dp_iff.mpr ⟨10000, by norm_num⟩)).2.2

/-- C10.  In both the percentage and the share split, a last detail entry with
no declared parameter is still assigned the non-zero rounded difference
between the transaction amount and the sum of the other entries' computed
amounts — a participant who declared no split parameter can end up owing a
non-zero amount. -/
theorem claim_C10_undefined_last_gets_residual :
    (∀ (t : Transaction) (init : List SplitDetail) (last : SplitDetail),
      t.splitType = SplitType.percentage →
      t.splitDetails = init ++ [last] →
      ((init ++ [last]).map (fun d => d.participant)).Nodup →
      last.percentage = none →
      round2 (t.amount - (init.filterMap (fun d => d.percentage.map
        (fun pc => round2 (t.amount * pc / 100)))).sum) ≠ 0 →
      mget (calculateSplitAmounts t) last.participant =
        some (round2 (t.amount - (init.filterMap (fun d => d.percentage.map
          (fun pc => round2 (t.amount * pc / 100)))).sum))) ∧
    (∀ (t : Transaction) (init : List SplitDetail) (last : SplitDetail),
      t.splitType = SplitType.shares →
      t.splitDetails = init ++ [last] →
      ((init ++ [last]).map (fun d => d.participant)).Nodup →
      last.shares = none →
      totalSharesOf (init ++ [last]) ≠ 0 →
      round2 (t.amount - (init.filterMap (fun d => d.shares.map
        (fun s => round2 (t.amount * s / totalSharesOf (init ++ [last]))))).sum) ≠ 0 →
      mget (calculateSplitAmounts t) last.participant =
        some (round2 (t.amount - (init.filterMap (fun d => d.shares.map
          (fun s => round2 (t.amount * s / totalSharesOf (init ++ [last]))))).sum))) := by
  constructor
  · intro t init last hty hdet hnd hlast hdiff
    have hs : calculateSplitAmounts t =
        adjustLast t.amount (init ++ [last])
          (detailPass (fun d => d.percentage)
            (fun pc => round2 (t.amount * pc / 100)) (init ++ [last])) := by
      unfold calculateSplitAmounts
      rw [hty, hdet]
      rfl
    have h := adjustLast_detailPass_spec (fun d => d.percentage)
      (fun pc => round2 (t.amount * pc / 100)) t.amount init last hnd
      (fun y => is2dp_round2 _)
    rw [hs]
    exact h.2.2.1 hlast hdiff
  · intro t init last hty hdet hnd hlast htot hdiff
    have hs : calculateSplitAmounts t =
        adjustLast t.amount (init ++ [last])
          (detailPass (fun d => d.shares)
            (fun s => round2 (t.amount * s / totalSharesOf (init ++ [last])))
            (init ++ [last])) := by
      unfold calculateSplitAmounts
      rw [hty, hdet]
      unfold calculateShareSplit
      rw [if_neg htot]
    have h := adjustLast_detailPass_spec (fun d => d.shares)
      (fun s => round2 (t.amount * s / totalSharesOf (init ++ [last])))
      t.amount init last hnd (fun y => is2dp_round2 _)
    rw [hs]
    exact h.2.2.1 hlast hdiff

/-- Witness for C10: a percentage split `[A: 50%, B: no percentage]` of 100
assigns `B` the residual 50, and a share split `[A: 1, B: 1, C: no shares]` of
99.99 assigns `C` the rounding residual `-0.01`. -/
theorem claim_C10_witness :
    mget (calculateSplitAmounts
      ⟨"P", 100, [], SplitType.percentage,
        [⟨"A", none, some 50, none⟩, ⟨"B", none, none, none⟩]⟩) "B" = some 50 ∧
    mget (calculateSplitAmounts
      ⟨"P", 9999/100, [], SplitType.shares,
        [⟨"A", none, none, some 1⟩, ⟨"B", none, none, some 1⟩,
          ⟨"C", none, none, none⟩]⟩) "C" = some (-(1/100)) := by
  have h50 : round2 (50 : ℚ) = 50 := round2_eq_self (is2dp_iff.mpr ⟨5000, by norm_num⟩)
  have hpval : round2 ((100 : ℚ) -
      (([⟨"A", none, some 50, none⟩] : List SplitDetail).filterMap
        (fun d => d.percentage.map (fun pc => round2 ((100:ℚ) * pc / 100)))).sum) = 50 := by
    simp only [List.filterMap_cons, List.filterMap_nil, Option.map_some',
      List.sum_cons, List.sum_nil]
    norm_num [h50]
  have htot : totalSharesOf ([⟨"A", none, none, some 1⟩, ⟨"B", none, none, some 1⟩,
      ⟨"C", none, none, none⟩] : List SplitDetail) = 2 := by
    norm_num [totalSharesOf]
  have hshare : round2 ((9999:ℚ)/100 * 1 / 2) = 50 := by
    rw [round2, jround]
    rw [show ((9999:ℚ)/100 * 1 / 2 * 100 + 1/2) = ((5000 : ℤ) : ℚ) by push_cast; ring]
    rw [Int.floor_intCast]
    norm_num
  have hsval : round2 ((9999:ℚ)/100 -
      (([⟨"A", none, none, some 1⟩, ⟨"B", none, none, some 1⟩] : List SplitDetail).filterMap
        (fun d => d.shares.map (fun s => round2 ((9999:ℚ)/100 * s /
          totalSharesOf ([⟨"A", none, none, some 1⟩, ⟨"B", none, none, some 1⟩] ++
            [⟨"C", none, none, none⟩]))))).sum) = -(1/100) := by
    rw [show ([⟨"A", none, none, some 1⟩, ⟨"B", none, none, some 1⟩] ++
        [⟨"C", none, none, none⟩] : List SplitDetail) =
      [⟨"A", none, none, some 1⟩, ⟨"B", none, none, some 1⟩,
        ⟨"C", none, none, none⟩] from rfl, htot]
    simp only [List.filterMap_cons, List.filterMap_nil, Option.map_some',
      List.sum_cons, List.sum_nil, hshare]
    rw [show ((9999:ℚ)/100 - (50 + (50 + 0))) = ((-1 : ℤ) : ℚ)/100 by push_cast; ring]
    rw [round2_eq_self (is2dp_iff.mpr ⟨-1, rfl⟩)]
    push_cast
    ring
  constructor
  · have h := claim_C10_undefined_last_gets_residual.1
      ⟨"P", 100, [], SplitType.percentage,
        [⟨"A", none, some 50, none⟩, ⟨"B", none, none, none⟩]⟩
      [⟨"A", none, some 50, none⟩] ⟨"B", none, none, none⟩ rfl rfl (by decide) rfl
      (by rw [hpval]; norm_num)
    rw [h, hpval]
  · have h := claim_C10_undefined_last_gets_residual.2
      ⟨"P", 9999/100, [], SplitType.shares,
        [⟨"A", none, none, some 1⟩, ⟨"B", none, none, some 1⟩,
          ⟨"C", none, none, none⟩]⟩
      [⟨"A", none, none, some 1⟩, ⟨"B", none, none, some 1⟩]
      ⟨"C", none, none, none⟩ rfl rfl (by decide) rfl
      (by rw [show ([⟨"A", none, none, some 1⟩, ⟨"B", none, none, some 1⟩] ++
          [⟨"C", none, none, none⟩] : List SplitDetail) =
        [⟨"A", none, none, some 1⟩, ⟨"B", none, none, some 1⟩,
          ⟨"C", none, none, none⟩] from rfl, htot]; norm_num)
      (by rw [hsval]; norm_num)
    rw [h, hsval]

/-- A fixed-split transaction with no split details: the payer is credited
100 while nobody is debited, so the aggregated balances cannot be settled. -/
def txC1 : Transaction := ⟨"A", 100, ["A"], SplitType.fixed, []⟩

/-- Counterexample to C1 as stated: for the balances produced from `txC1`,
`validateSettlements(balances, calculateOptimizedSettlements(balances))`
returns `false` — the optimizer leaves the unmatched creditor's balance
untouched and the validator flags it. -/
theorem claim_C1_counterexample :
    validateSettlements (calculateBalances [txC1] none)
      (calculateOptimizedSettlements (calculateBalances [txC1] none)) = false := by
  have h100 : round2 (100 : ℚ) = 100 := by
    rw [show (100 : ℚ) = ((10000 : ℤ) : ℚ) / 100 by norm_num]
    exact round2_eq_self (is2dp_iff.mpr ⟨10000, rfl⟩)
  norm_num [txC1, calculateBalances, processTransaction, calculateSplitAmounts,
    calculateFixedSplit, snapBalance, h100, sortByDesc, insertByDesc,
    calculateOptimizedSettlements, balanceMapOf, creditorsOf, debtorsOf,
    settleLoop, validateSettlements, applySettlement, mset, mget, mgetD, keys]

/-- C1 (amended).  `validateSettlements(balances, optimize(balances))` is not
true for every aggregator-produced balance list; it is true whenever the
balance list has pairwise distinct participants, whole-cent amounts summing to
exactly zero, exactly one positive balance, and no balance of magnitude in the
open band between 0 and 0.02: the single creditor is then paid in full by
every debtor and every expected balance ends at exactly zero. -/
theorem claim_C1_amended_single_creditor (balances : List Balance)
    (hnd : (balances.map (fun b => b.participant)).Nodup)
    (h2 : ∀ b ∈ balances, is2dp b.amount)
    (hsum : (balances.map (fun b => b.amount)).sum = 0)
    (hone : (balances.filter (fun b => decide (0 < b.amount))).length = 1)
    (hmag : ∀ b ∈ balances, b.amount = 0 ∨ 2/100 ≤ |b.amount|) :
    validateSettlements balances (calculateOptimizedSettlements balances) = true := by
  classical
  have hbm := balanceMapOf_eq_of_nodup hnd
  have hdistinct : ∀ b ∈ balances, ∀ b' ∈ balances,
      b.participant = b'.participant → b = b' := by
    intro b hb b' hb' hp
    exact List.inj_on_of_nodup_map hnd hb hb' hp
  obtain ⟨bc, hbc⟩ := List.length_eq_one.mp hone
  have hbc_mem : bc ∈ balances :=
    List.mem_of_mem_filter (hbc ▸ List.mem_singleton_self bc)
  have hbc_pos : 0 < bc.amount := by
    have := List.of_mem_filter (hbc ▸ List.mem_singleton_self bc)
    simpa using this
  have hbc_ge : 2/100 ≤ bc.amount := by
    rcases hmag bc hbc_mem with h | h
    · linarith
    · rwa [abs_of_pos hbc_pos] at h
  -- the partitions in terms of sign filters
  have hposfilter : balances.filter (fun b => decide (1/100 < b.amount)) =
      balances.filter (fun b => decide (0 < b.amount)) := by
    apply List.filter_congr
    intro b hb
    rw [decide_eq_decide]
    constructor
    · intro h; linarith
    · intro h
      rcases hmag b hb with h0 | hM
      · linarith
      · rw [abs_of_pos h] at hM
        linarith
  have hnegfilter : balances.filter (fun b => decide (b.amount < -(1/100))) =
      balances.filter (fun b => decide (b.amount < 0)) := by
    apply List.filter_congr
    intro b hb
    rw [decide_eq_decide]
    constructor
    · intro h; linarith
    · intro h
      rcases hmag b hb with h0 | hM
      · linarith
      · rw [abs_of_neg h] at hM
        linarith
  have hcred : creditorsOf (balanceMapOf balances) =
      [⟨bc.participant, bc.amount⟩] := by
    rw [hbm, creditorsOf_map_pairs, hposfilter, hbc]
    rfl
  have hdebt : debtorsOf (balanceMapOf balances) =
      (balances.filter (fun b => decide (b.amount < 0))).map
        (fun b => ⟨b.participant, |b.amount|⟩) := by
    rw [hbm, debtorsOf_map_pairs, hnegfilter]
  set N := balances.filter (fun b => decide (b.amount < 0)) with hN
  have hN_neg : ∀ b ∈ N, b.amount < 0 := by
    intro b hb
    have := List.of_mem_filter hb
    simpa using this
  have hN_mem : ∀ b ∈ N, b ∈ balances := fun b hb => List.mem_of_mem_filter hb
  have hbc_not_N : ∀ b ∈ N, b.participant ≠ bc.participant := by
    intro b hb hp
    have hbb : b = bc := hdistinct b (hN_mem b hb) bc hbc_mem hp
    have := hN_neg b hb
    rw [hbb] at this
    linarith
  -- the creditor's amount is the debtors' total
  have hsum_pos : ((balances.filter (fun b => decide (0 < b.amount))).map
      (fun b => b.amount)).sum = bc.amount := by
    rw [hbc]
    simp
  have hc_eq : bc.amount = (N.map (fun b => |b.amount|)).sum := by
    have hsplit := sum_split_sign balances
    rw [hsum, hsum_pos] at hsplit
    have habs : N.map (fun b => |b.amount|) = N.map (fun b => -b.amount) :=
      List.map_congr_left (fun b hb => abs_of_neg (hN_neg b hb))
    rw [habs, sum_map_neg_balance]
    linarith
  -- the sorted debtor worklist
  set dsE := sortByDesc Entry.amount (debtorsOf (balanceMapOf balances)) with hdsE
  have hperm : List.Perm dsE (N.map (fun b => ⟨b.participant, |b.amount|⟩)) := by
    rw [hdsE, hdebt]
    exact sortByDesc_perm _ _
  have hsum_ds : (dsE.map Entry.amount).sum = bc.amount := by
    rw [(hperm.map Entry.amount).sum_eq, List.map_map]
    rw [show ((fun e : Entry => e.amount) ∘ fun b : Balance =>
      (⟨b.participant, |b.amount|⟩ : Entry)) = fun b : Balance => |b.amount| from rfl]
    exact hc_eq.symm
  have hmem_ds : ∀ d ∈ dsE, 2/100 ≤ d.amount ∧ is2dp d.amount := by
    intro d hd
    obtain ⟨b, hb, hbd⟩ := List.mem_map.mp (hperm.mem_iff.mp hd)
    have hneg := hN_neg b hb
    have hmem := hN_mem b hb
    constructor
    · rw [← hbd]
      rcases hmag b hmem with h0 | hM
      · linarith
      · exact hM
    · rw [← hbd]
      show is2dp |b.amount|
      rw [abs_of_neg hneg]
      exact is2dp_neg (h2 b hmem)
  have hds_participants : dsE.map (fun d => d.participant) =
      dsE.map (fun d => d.participant) := rfl
  have hdsE_nodup : ((N.map (fun b => (⟨b.participant, |b.amount|⟩ : Entry))).map
      (fun d => d.participant)).Nodup := by
    rw [List.map_map]
    rw [show ((fun d : Entry => d.participant) ∘ fun b : Balance =>
      (⟨b.participant, |b.amount|⟩ : Entry)) = fun b : Balance => b.participant from rfl]
    exact List.Nodup.sublist ((List.filter_sublist balances).map _) hnd
  -- the optimizer's output
  have hopt : calculateOptimizedSettlements balances =
      dsE.map (fun d => ⟨d.participant, bc.participant, d.amount⟩) := by
    show settleLoop (sortByDesc Entry.amount (creditorsOf (balanceMapOf balances)))
      (sortByDesc Entry.amount (debtorsOf (balanceMapOf balances))) = _
    rw [hcred, ← hdsE]
    rw [show sortByDesc Entry.amount [(⟨bc.participant, bc.amount⟩ : Entry)] =
      [⟨bc.participant, bc.amount⟩] from rfl]
    rw [show bc.amount = (dsE.map Entry.amount).sum from hsum_ds.symm]
    exact settleLoop_single_creditor bc.participant dsE hmem_ds
  have hP_not_ds : bc.participant ∉ dsE.map (fun d => d.participant) := by
    intro hmem
    obtain ⟨d, hd, hdp⟩ := List.mem_map.mp hmem
    obtain ⟨b, hb, hbd⟩ := List.mem_map.mp (hperm.mem_iff.mp hd)
    apply hbc_not_N b hb
    rw [← hdp, ← hbd]
  have hss_ne : ∀ s ∈ dsE.map
      (fun d => (⟨d.participant, bc.participant, d.amount⟩ : Settlement)),
      s.from_ ≠ s.to_ := by
    intro s hs
    obtain ⟨d, hd, hds⟩ := List.mem_map.mp hs
    rw [← hds]
    intro hh
    apply hP_not_ds
    have hph : d.participant = bc.participant := hh
    rw [← hph]
    exact List.mem_map_of_mem (fun d => d.participant) hd
  -- keys of the expected-balance map are the balance participants
  have hkeys0 : keys (balanceMapOf balances) = balances.map (fun b => b.participant) := by
    rw [hbm, keys_map_pairs]
  have hss_keys : ∀ s ∈ dsE.map
      (fun d => (⟨d.participant, bc.participant, d.amount⟩ : Settlement)),
      s.from_ ∈ keys (balanceMapOf balances) ∧
      s.to_ ∈ keys (balanceMapOf balances) := by
    intro s hs
    obtain ⟨d, hd, hds⟩ := List.mem_map.mp hs
    obtain ⟨b, hb, hbd⟩ := List.mem_map.mp (hperm.mem_iff.mp hd)
    rw [hkeys0, ← hds]
    constructor
    · show d.participant ∈ _
      rw [← hbd]
      exact List.mem_map_of_mem _ (hN_mem b hb)
    · show bc.participant ∈ _
      exact List.mem_map_of_mem _ hbc_mem
  -- each participant's final expected balance is zero
  have hfinal : ∀ b ∈ balances,
      mgetD ((dsE.map
        (fun d => (⟨d.participant, bc.participant, d.amount⟩ : Settlement))).foldl
          applySettlement (balanceMapOf balances)) b.participant = 0 := by
    intro b hb
    rw [mgetD_fold_applySettlement _ _ _ hss_ne]
    have hm0 : mgetD (balanceMapOf balances) b.participant = b.amount := by
      rw [hbm, mgetD]
      rw [mget_eq_some_of_mem (by rw [keys_map_pairs]; exact hnd)
        (List.mem_map_of_mem (fun b => (b.participant, b.amount)) hb)]
      rfl
    rw [hm0]
    rcases lt_trichotomy b.amount 0 with hneg | hzero | hpos
    · -- a debtor: receives back exactly its magnitude
      have hbN : b ∈ N := by
        rw [hN]
        exact List.mem_filter.mpr ⟨hb, by simpa using hneg⟩
      have hq_ne : b.participant ≠ bc.participant := hbc_not_N b hbN
      rw [netEffect_other _ _ _ hq_ne]
      have hindic := (hperm.map
        (fun d : Entry => if d.participant = b.participant then d.amount else 0)).sum_eq
      rw [hindic, List.map_map]
      rw [show ((fun d : Entry => if d.participant = b.participant then d.amount else 0) ∘
        fun b' : Balance => (⟨b'.participant, |b'.amount|⟩ : Entry)) =
        fun b' : Balance => if b'.participant = b.participant then |b'.amount| else 0
        from rfl]
      have := sum_if_participant_eq (N.map (fun b => ⟨b.participant, |b.amount|⟩))
        ⟨b.participant, |b.amount|⟩ hdsE_nodup
        (List.mem_map_of_mem (fun b => (⟨b.participant, |b.amount|⟩ : Entry)) hbN)
      rw [List.map_map] at this
      rw [show ((fun d : Entry =>
        if d.participant = (⟨b.participant, |b.amount|⟩ : Entry).participant
        then d.amount else 0) ∘ fun b' : Balance =>
        (⟨b'.participant, |b'.amount|⟩ : Entry)) =
        fun b' : Balance => if b'.participant = b.participant then |b'.amount| else 0
        from rfl] at this
      rw [this]
      rw [abs_of_neg hneg]
      ring
    · -- an exactly-settled participant: untouched
      have hq_ne : b.participant ≠ bc.participant := by
        intro hp
        have hbb : b = bc := hdistinct b hb bc hbc_mem hp
        rw [hbb] at hzero
        linarith
      rw [netEffect_other _ _ _ hq_ne]
      have hnot : b.participant ∉ dsE.map (fun d => d.participant) := by
        intro hmem
        obtain ⟨d, hd, hdp⟩ := List.mem_map.mp hmem
        obtain ⟨b', hb', hbd⟩ := List.mem_map.mp (hperm.mem_iff.mp hd)
        have hp : b'.participant = b.participant := by rw [← hdp, ← hbd]
        have hbb : b' = b := hdistinct b' (hN_mem b' hb') b hb hp
        have := hN_neg b' hb'
        rw [hbb] at this
        linarith
      rw [sum_if_participant_zero _ _ hnot, hzero]
      ring
    · -- the creditor: pays out its full amount
      have hbb : b = bc := by
        have hbf : b ∈ balances.filter (fun b => decide (0 < b.amount)) :=
          List.mem_filter.mpr ⟨hb, by simpa using hpos⟩
        rw [hbc] at hbf
        simpa using hbf
      rw [hbb, netEffect_creditor bc.participant dsE hP_not_ds, hsum_ds]
      ring
  -- conclude
  unfold validateSettlements
  rw [hopt]
  dsimp only
  rw [List.all_eq_true]
  intro e he
  have hkeys_exp : keys ((dsE.map
      (fun d => (⟨d.participant, bc.participant, d.amount⟩ : Settlement))).foldl
        applySettlement (balanceMapOf balances)) = keys (balanceMapOf balances) :=
    keys_fold_applySettlement _ _ hss_keys
  have hnodup_exp : (keys ((dsE.map
      (fun d => (⟨d.participant, bc.participant, d.amount⟩ : Settlement))).foldl
        applySettlement (balanceMapOf balances))).Nodup := by
    rw [hkeys_exp, hkeys0]
    exact hnd
  have he2 : mget ((dsE.map
      (fun d => (⟨d.participant, bc.participant, d.amount⟩ : Settlement))).foldl
        applySettlement (balanceMapOf balances)) e.1 = some e.2 :=
    mget_eq_some_of_mem hnodup_exp he
  have he1 : e.1 ∈ balances.map (fun b => b.participant) := by
    rw [← hkeys0, ← hkeys_exp]
    exact List.mem_map_of_mem Prod.fst he
  obtain ⟨b, hb, hbp⟩ := List.mem_map.mp he1
  have : e.2 = 0 := by
    have hg := hfinal b hb
    rw [hbp] at hg
    rw [mgetD, he2] at hg
    exact hg
  rw [this]
  norm_num

/-- Witness for the amended C1: one creditor owed `0.10`, two debtors owing
`0.06` and `0.04`, one settled participant. -/
theorem claim_C1_amended_witness :
    validateSettlements [⟨"A", 1/10⟩, ⟨"B", -(6/100)⟩, ⟨"C", -(4/100)⟩, ⟨"D", 0⟩]
      (calculateOptimizedSettlements
        [⟨"A", 1/10⟩, ⟨"B", -(6/100)⟩, ⟨"C", -(4/100)⟩, ⟨"D", 0⟩]) = true := by
  apply claim_C1_amended_single_creditor
  · decide
  · intro b hb
    fin_cases hb <;> rw [is2dp_iff]
    · exact ⟨10, by norm_num⟩
    · exact ⟨-6, by norm_num⟩
    · exact ⟨-4, by norm_num⟩
    · exact ⟨0, by norm_num⟩
  · norm_num
  · norm_num [List.filter]
  · intro b hb
    fin_cases hb
    · right
      rw [show |(1/10 : ℚ)| = 1/10 from abs_of_pos (by norm_num)]
      norm_num
    · right
      rw [show |(-(6/100) : ℚ)| = 6/100 from by
        rw [abs_neg]; exact abs_of_pos (by norm_num)]
      norm_num
    · right
      rw [show |(-(4/100) : ℚ)| = 4/100 from by
        rw [abs_neg]; exact abs_of_pos (by norm_num)]
      norm_num
    · left
      rfl

/-- A fixed-split transaction whose empty detail list debits nobody: the payer
keeps a raw +100 balance, so the balance total is 100, far beyond the claimed
conservation tolerance. -/
def txC2 : Transaction := ⟨"A", 100, ["A"], SplitType.fixed, []⟩

/-- Counterexample to C2 as stated: for the one-transaction list `[txC2]`
(a legal input: any split modes, any split details), the balance amounts
returned by `calculateBalances` sum to 100, which is not within
`0.02 × 1` of zero. -/
theorem claim_C2_counterexample :
    ¬ |((calculateBalances [txC2] none).map (fun b => b.amount)).sum| ≤
        2/100 * (([txC2] : List Transaction).length : ℚ) := by
  have h100 : round2 (100 : ℚ) = 100 := by
    rw [show (100 : ℚ) = ((10000 : ℤ) : ℚ) / 100 by norm_num]
    exact round2_eq_self (is2dp_iff.mpr ⟨10000, rfl⟩)
  norm_num [txC2, calculateBalances, processTransaction, calculateSplitAmounts,
    calculateFixedSplit, snapBalance, h100, sortByDesc, insertByDesc,
    mset, mget, mgetD, keys]

/-- C2 (amended).  Conservation does not hold for arbitrary split modes (a
fixed split whose details omit participants loses nothing back, so the balance
total equals the undistributed amount).  It does hold for every list of
equal-split transactions with non-empty duplicate-free participant lists, with
either value of the known-participant argument: the balance amounts returned
by `calculateBalances` sum to within `0.02 × (number of transactions)` of
zero. -/
theorem claim_C2_amended_conservation (txs : List Transaction)
    (aps : Option (List String))
    (h : ∀ t ∈ txs, t.splitType = SplitType.equal ∧ t.participants ≠ [] ∧
      t.participants.Nodup) :
    |((calculateBalances txs aps).map (fun b => b.amount)).sum| ≤
      2/100 * (txs.length : ℚ) := by
  have hlen : (0 : ℚ) ≤ (txs.length : ℚ) := Nat.cast_nonneg _
  cases aps with
  | none =>
    have hperm : List.Perm
        ((calculateBalances txs none).map (fun b => b.amount))
        (((txs.foldl processTransaction []).map
          (fun e => Balance.mk e.1 (snapBalance e.2))).map (fun b => b.amount)) := by
      unfold calculateBalances
      exact List.Perm.map _ (sortByDesc_perm _ _)
    rw [hperm.sum_eq, List.map_map]
    rw [show ((fun b : Balance => b.amount) ∘
        (fun e : String × ℚ => Balance.mk e.1 (snapBalance e.2))) =
      (fun e : String × ℚ => snapBalance e.2) from rfl]
    refine le_trans (balances_core txs [] h rfl List.nodup_nil
      (fun e he => absurd he (List.not_mem_nil e))) ?_
    linarith
  | some ps =>
    have hperm : List.Perm
        ((calculateBalances txs (some ps)).map (fun b => b.amount))
        ((((txs.foldl processTransaction
              (ps.foldl (fun m p => mset m p 0) [])).map
            (fun e => Balance.mk e.1 (snapBalance e.2)) ++
          (ps.filter (fun p => decide (p ∉
            ((txs.foldl processTransaction
              (ps.foldl (fun m p => mset m p 0) [])).map
              (fun e => Balance.mk e.1 (snapBalance e.2))).map
                (fun b => b.participant)))).map
            (fun p => Balance.mk p 0))).map (fun b => b.amount)) := by
      unfold calculateBalances
      exact List.Perm.map _ (sortByDesc_perm _ _)
    rw [hperm.sum_eq, List.map_append, List.sum_append]
    have hzeros : (((ps.filter (fun p => decide (p ∉
        ((txs.foldl processTransaction
          (ps.foldl (fun m p => mset m p 0) [])).map
          (fun e => Balance.mk e.1 (snapBalance e.2))).map
            (fun b => b.participant)))).map
        (fun p => Balance.mk p 0)).map (fun b => b.amount)).sum = 0 := by
      rw [List.map_map]
      rw [show ((fun b : Balance => b.amount) ∘
          (fun p : String => Balance.mk p 0)) = (fun _ : String => (0 : ℚ)) from
        rfl]
      rw [sum_map_const, mul_zero]
    rw [hzeros, add_zero, List.map_map]
    rw [show ((fun b : Balance => b.amount) ∘
        (fun e : String × ℚ => Balance.mk e.1 (snapBalance e.2))) =
      (fun e : String × ℚ => snapBalance e.2) from rfl]
    refine le_trans (balances_core txs (ps.foldl (fun m p => mset m p 0) []) h
      (initMap_sum_zero ps) (initMap_keys_nodup ps) (initMap_entry_zero ps)) ?_
    linarith

/-- Witness for the amended C2 at a concrete equal-split transaction list. -/
theorem claim_C2_amended_witness :
    |((calculateBalances
        [⟨"Alice", 100, ["Alice", "Bob", "Charlie"], SplitType.equal, []⟩]
        none).map (fun b => b.amount)).sum| ≤
      2/100 * (([⟨"Alice", 100, ["Alice", "Bob", "Charlie"], SplitType.equal,
        []⟩] : List Transaction).length : ℚ) := by
  apply claim_C2_amended_conservation
  intro t ht
  rw [List.mem_singleton] at ht
  subst ht
  exact ⟨rfl, by decide, by decide⟩

/-- Scenario 2 of the spec: Alice pays 100, split equally among Alice, Bob
and Charlie. -/
def txC8 : Transaction :=
  ⟨"Alice", 100, ["Alice", "Bob", "Charlie"], SplitType.equal, []⟩

/-- The aggregated balances of scenario 2: the extra cent from flooring is
added to Alice's owed share (33.34), so her net credit is `100 - 33.34 =
66.66`. -/
theorem txC8_balances :
    calculateBalances [txC8] none =
      [⟨"Alice", 6666/100⟩, ⟨"Bob", -(3333/100)⟩, ⟨"Charlie", -(3333/100)⟩] := by
  have h1 : (⌊(10000 : ℚ)/3⌋ : ℤ) = 3333 := by rw [Int.floor_eq_iff]; norm_num
  have h2 : (⌊(3 : ℚ)/2⌋ : ℤ) = 1 := by rw [Int.floor_eq_iff]; norm_num
  have h3 : (⌊(6669 : ℚ)/2⌋ : ℤ) = 3334 := by rw [Int.floor_eq_iff]; norm_num
  have h4 : (⌊(6667 : ℚ)/2⌋ : ℤ) = 3333 := by rw [Int.floor_eq_iff]; norm_num
  have h5 : (⌊(13333 : ℚ)/2⌋ : ℤ) = 6666 := by rw [Int.floor_eq_iff]; norm_num
  have h6 : (⌊(-6665 : ℚ)/2⌋ : ℤ) = -3333 := by rw [Int.floor_eq_iff]; norm_num
  norm_num +decide [txC8, calculateBalances, processTransaction,
    calculateSplitAmounts, calculateEqualSplit, floor2, round2, jround,
    snapBalance_eq_round2, sortByDesc, insertByDesc, mset, mget, mgetD, keys,
    List.enum, List.enumFrom, h1, h2, h3, h4, h5, h6]

/-- The optimized settlements of scenario 2. -/
theorem txC8_settlements :
    calculateOptimizedSettlements
      [⟨"Alice", 6666/100⟩, ⟨"Bob", -(3333/100)⟩, ⟨"Charlie", -(3333/100)⟩] =
      [⟨"Bob", "Alice", 3333/100⟩, ⟨"Charlie", "Alice", 3333/100⟩] := by
  have h4 : (⌊(6667 : ℚ)/2⌋ : ℤ) = 3333 := by rw [Int.floor_eq_iff]; norm_num
  norm_num +decide [calculateOptimizedSettlements, balanceMapOf, creditorsOf,
    debtorsOf, settleLoop, round2, jround, mset, mget, mgetD, keys, sortByDesc,
    insertByDesc, min_def, abs_of_pos, abs_of_neg, h4]

/-- Counterexample to C8 as stated: Alice's aggregated balance in scenario 2
is exactly `66.66`, not `66.67` — the extra cent from flooring is added to the
first participant's owed share, which lowers the payer's credit. -/
theorem claim_C8_counterexample :
    calculateBalances [txC8] none =
      [⟨"Alice", 6666/100⟩, ⟨"Bob", -(3333/100)⟩, ⟨"Charlie", -(3333/100)⟩] ∧
    ((6666 : ℚ)/100 ≠ 6667/100) := by
  refine ⟨txC8_balances, by norm_num⟩

/-- C8 (amended).  For the single transaction in which Alice pays 100 split
equally among Alice, Bob and Charlie, the balances are exactly Alice +66.66,
Bob -33.33, Charlie -33.33 (the flooring cent is added to Alice's owed share),
and the optimizer emits exactly two settlements, both to Alice: Bob pays
Alice 33.33 and Charlie pays Alice 33.33. -/
theorem claim_C8_amended_scenario :
    calculateBalances [txC8] none =
      [⟨"Alice", 6666/100⟩, ⟨"Bob", -(3333/100)⟩, ⟨"Charlie", -(3333/100)⟩] ∧
    calculateOptimizedSettlements (calculateBalances [txC8] none) =
      [⟨"Bob", "Alice", 3333/100⟩, ⟨"Charlie", "Alice", 3333/100⟩] ∧
    (calculateOptimizedSettlements (calculateBalances [txC8] none)).length = 2 ∧
    ∀ s ∈ calculateOptimizedSettlements (calculateBalances [txC8] none),
      s.to_ = "Alice" := by
  refine ⟨txC8_balances, ?_, ?_, ?_⟩ <;> rw [txC8_balances, txC8_settlements]
  · rfl
  · intro s hs
    fin_cases hs <;> rfl

/-- C6.  `validateSplit` returns a non-empty error list exactly when the
recomputed split sum differs from the amount by more than `0.02`, or the split
is an equal split whose payer is missing from the participant list.  It is a
total function returning error values — the source never throws. -/
theorem claim_C6_validateSplit_iff (t : Transaction) :
    validateSplit t ≠ [] ↔
      (2/100 < |sumValues (calculateSplitAmounts t) - t.amount| ∨
        (t.splitType = SplitType.equal ∧ t.paidBy ∉ t.participants)) := by
  unfold validateSplit
  by_cases h1 : 2/100 < |sumValues (calculateSplitAmounts t) - t.amount| <;>
    by_cases h2 : t.splitType = SplitType.equal ∧ t.paidBy ∉ t.participants <;>
      simp [h1, h2]

/-- C7.  A share split whose share counts are all absent or zero yields the
empty owed-amount mapping (and no error: `calculateShareSplit` is total). -/
theorem claim_C7_degenerate_share_split (t : Transaction)
    (hty : t.splitType = SplitType.shares)
    (hsh : ∀ d ∈ t.splitDetails, d.shares = none ∨ d.shares = some 0) :
    calculateSplitAmounts t = [] := by
  unfold calculateSplitAmounts
  rw [hty]
  unfold calculateShareSplit
  simp [totalSharesOf_eq_zero hsh]

/-- Witness for C7: a concrete share-split transaction with one zero-share
entry and one absent-share entry produces the empty mapping. -/
theorem claim_C7_witness :
    calculateSplitAmounts
      ⟨"A", 100, [], SplitType.shares,
        [⟨"B", none, none, some 0⟩, ⟨"C", none, none, none⟩]⟩ = [] :=
  claim_C7_degenerate_share_split _ rfl (by decide)

end SplitKar
